import Mathlib

/-!
Verification of the line-following core (`lf_core.py`): binary-mask skeleton
graphs, trunk/branch extraction, route simplification, greedy route splitting
for agents, and route joining.  Pixel-graph nodes are integer coordinate
pairs; machine floats are modelled by exact rationals (distance comparisons
are squared, which is equivalent for nonnegative thresholds).
-/

namespace LF

/-- A pixel-graph node: an integer coordinate pair, as in the source where
a coordinate pair is the node key. -/
abbrev Node := ℤ × ℤ

/-- Shallow embedding of `networkx.Graph` as used by the source: a node list
in insertion order and an undirected edge list in insertion order (an edge is
stored once, in the orientation it was first added). -/
structure Graph where
  nodes : List Node
  edges : List (Node × Node)
deriving DecidableEq

/-- `G.add_node(n)`: appends the node if absent. -/
def addNode (G : Graph) (n : Node) : Graph :=
  if n ∈ G.nodes then G else ⟨G.nodes ++ [n], G.edges⟩

/-- `G.has_edge(u, v)`: membership in either orientation. -/
def hasEdge (G : Graph) (u v : Node) : Bool :=
  G.edges.any (fun e => (e.1 = u ∧ e.2 = v) ∨ (e.1 = v ∧ e.2 = u))

/-- `G.add_edge(u, v)`: adds missing endpoints as nodes, then the edge if it
is not already present. -/
def addEdge (G : Graph) (u v : Node) : Graph :=
  let G1 := addNode (addNode G u) v
  if hasEdge G1 u v then G1 else ⟨G1.nodes, G1.edges ++ [(u, v)]⟩

/-- `G.neighbors(u)` in adjacency insertion order: scan the edge list and
yield the opposite endpoint of each edge incident to `u`. -/
def neighborsG (G : Graph) (u : Node) : List Node :=
  G.edges.filterMap (fun e =>
    if e.1 = u then some e.2 else if e.2 = u then some e.1 else none)

/-- `G.degree(u)`: the number of incident edges (the graphs built here have
no self-loops or multi-edges). -/
def degreeG (G : Graph) (u : Node) : ℕ :=
  (neighborsG G u).length

/-- The degree-1 nodes of `G`, in node insertion order
(`[n for n in G.nodes if G.degree(n) == 1]`). -/
def endpointsOf (G : Graph) : List Node :=
  G.nodes.filter (fun n => degreeG G n = 1)

/-! ### Route joining (`join_routes_for_agent`) -/

/-- One step of the joining fold: skip segments with fewer than 2 points;
start with the first kept segment; otherwise drop the new segment's first
point when it coincides with the last accumulated point, else insert it as a
connecting point (appending the first point then the tail is appending the
whole segment). -/
def joinStep {α : Type} [DecidableEq α] (coords seg : List α) : List α :=
  if seg.length < 2 then coords
  else if coords.isEmpty then seg
  else if coords.getLast? = seg.head? then coords ++ seg.tail
  else coords ++ seg

/-- `join_routes_for_agent(route_list)`: concatenate the routes of one agent
into a single coordinate sequence. -/
def join_routes_for_agent {α : Type} [DecidableEq α] (route_list : List (List α)) : List α :=
  route_list.foldl joinStep []

/-! ### Route simplification (`simplify_route`) -/

/-- `simplify_route(coords, tol)`.  The underlying polyline simplification
(`shapely.LineString.simplify`) is an external library call, so it enters the
model as an arbitrary function `simp`; the wrapper returns the input
unchanged when it has fewer than 3 points or when the simplified result is
empty or has fewer than 2 points. -/
def simplify_route {α : Type} (simpF : List α → List α) (coords : List α) : List α :=
  if coords.length < 3 then coords
  else
    let s := simpF coords
    if s.length < 2 then coords else s

/-! ### Route splitting (`split_routes_for_agents`) -/

/-- The per-route scalar length used by the splitter:
`LineString(r).length if len(r) >= 2 else 0.0`.  The Euclidean length
computation is external (shapely), modelled by an arbitrary nonnegative
function `lenF`. -/
def routeLen {α : Type} (lenF : List α → ℚ) (r : List α) : ℚ :=
  if 2 ≤ r.length then lenF r else 0

/-- Stable insertion of `x` into a descending-sorted list: `x` goes in front
of the first element whose key is no larger, so an earlier-listed route
precedes later routes of equal length, as with Python's stable sort. -/
def insertDesc {α : Type} (key : α → ℚ) (x : α) : List α → List α
  | [] => [x]
  | y :: ys => if key y ≤ key x then x :: y :: ys else y :: insertDesc key x ys

/-- Stable descending sort by key, modelling
`sorted(range(len(routes)), key=lambda i: lengths[i], reverse=True)`. -/
def sortDesc {α : Type} (key : α → ℚ) : List α → List α
  | [] => []
  | x :: xs => insertDesc key x (sortDesc key xs)

/-- `min(range(m), key=lambda j: bucket_len[j])`: index of the first minimum. -/
def firstArgminAux : List ℚ → ℚ → ℕ → ℕ → ℕ
  | [], _, bi, _ => bi
  | x :: rest, bv, bi, i =>
    if x < bv then firstArgminAux rest x i (i + 1) else firstArgminAux rest bv bi (i + 1)

/-- Index of the first minimal entry of a list of rationals (0 on `[]`). -/
def firstArgmin : List ℚ → ℕ
  | [] => 0
  | x :: rest => firstArgminAux rest x 0 1

/-- One assignment step of the splitter: put route index `idx` into the
bucket with the least running total and add its length to that total. -/
def splitStep {α : Type} (routes : List (List α)) (lengths : List ℚ)
    (st : List (List (List α)) × List ℚ) (idx : ℕ) : List (List (List α)) × List ℚ :=
  let k := firstArgmin st.2
  (st.1.set k (st.1.getD k [] ++ [routes.getD idx []]),
   st.2.set k (st.2.getD k 0 + lengths.getD idx 0))

/-- `split_routes_for_agents(routes, n_agents)`: length-based greedy load
balancing (longest-first, least-loaded bucket, first bucket on ties). -/
def split_routes_for_agents {α : Type} (lenF : List α → ℚ)
    (routes : List (List α)) (n_agents : ℤ) : List (List (List α)) :=
  if routes.isEmpty ∨ n_agents ≤ 0 then []
  else
    let m := min n_agents.toNat routes.length
    let lengths := routes.map (routeLen lenF)
    let order := sortDesc (fun i => lengths.getD i 0) (List.range routes.length)
    (order.foldl (splitStep routes lengths) (List.replicate m [], List.replicate m 0)).1

/-- The running bucket totals (`bucket_len`) of the splitter, for stating
properties about the maximum bucket total. -/
def split_bucket_lens {α : Type} (lenF : List α → ℚ)
    (routes : List (List α)) (n_agents : ℤ) : List ℚ :=
  if routes.isEmpty ∨ n_agents ≤ 0 then []
  else
    let m := min n_agents.toNat routes.length
    let lengths := routes.map (routeLen lenF)
    let order := sortDesc (fun i => lengths.getD i 0) (List.range routes.length)
    (order.foldl (splitStep routes lengths) (List.replicate m [], List.replicate m 0)).2

/-! ### Skeleton to graph (`skeleton_to_graph`) -/

/-- The 4-connectivity neighbor offsets of the source. -/
def dirs4 : List (ℤ × ℤ) := [(-1, 0), (1, 0), (0, -1), (0, 1)]

/-- The 8-connectivity neighbor offsets of the source. -/
def dirs8 : List (ℤ × ℤ) :=
  [(-1, 0), (1, 0), (0, -1), (0, 1), (-1, -1), (-1, 1), (1, -1), (1, 1)]

/-- The foreground cells of an `h×w` mask in row-major order, as produced by
`np.where(skel > 0)`. -/
def maskCells (mask : ℤ → ℤ → Bool) (h w : ℕ) : List Node :=
  (List.range h).flatMap (fun (y : ℕ) =>
    (List.range w).filterMap (fun (x : ℕ) =>
      if mask (y : ℤ) (x : ℤ) then some (((y : ℤ), (x : ℤ)) : Node) else none))

/-- The neighbor test of the edge-insertion pass: the offset cell is inside
the `h×w` bounds and is foreground. -/
def cellCond (mask : ℤ → ℤ → Bool) (h w : ℕ) (c d : ℤ × ℤ) : Prop :=
  0 ≤ c.1 + d.1 ∧ c.1 + d.1 < (h : ℤ) ∧ 0 ≤ c.2 + d.2 ∧ c.2 + d.2 < (w : ℤ) ∧
    mask (c.1 + d.1) (c.2 + d.2) = true

instance (mask : ℤ → ℤ → Bool) (h w : ℕ) (c d : ℤ × ℤ) :
    Decidable (cellCond mask h w c d) := by
  unfold cellCond
  infer_instance

/-- The edge-insertion pass for one foreground cell: try every neighbor
offset, adding an edge when the neighbor is in bounds and foreground. -/
def addCellEdges (mask : ℤ → ℤ → Bool) (h w : ℕ) (dirs : List (ℤ × ℤ))
    (G : Graph) (c : Node) : Graph :=
  dirs.foldl (fun G d =>
    if cellCond mask h w c d then addEdge G c (c.1 + d.1, c.2 + d.2)
    else G) G

/-- `skeleton_to_graph(skel, connectivity)`: one node per foreground cell,
one edge per pair of (4- or 8-)adjacent foreground cells. -/
def skeleton_to_graph (mask : ℤ → ℤ → Bool) (h w : ℕ) (connectivity : ℕ) : Graph :=
  let dirs := if connectivity = 4 then dirs4 else dirs8
  let cells := maskCells mask h w
  let G0 := cells.foldl addNode ⟨[], []⟩
  cells.foldl (addCellEdges mask h w dirs) G0

/-! ### Endpoint bridging (`_bridge_endpoints`) -/

/-- `_dist(a, b) <= q`, stated on squares: for a nonnegative threshold `q`
this is exactly the source's Euclidean-distance comparison. -/
def distSqLe (a b : Node) (q : ℚ) : Bool :=
  decide ((((a.1 - b.1) ^ 2 + (a.2 - b.2) ^ 2 : ℤ) : ℚ) ≤ q ^ 2)

/-- Inner loop of `_bridge_endpoints`: bridge endpoint `a` with every later
endpoint that is close enough and not already adjacent. -/
def bridgeInner (q : ℚ) (a : Node) (G : Graph) (rest : List Node) : Graph :=
  rest.foldl (fun G b =>
    if distSqLe a b q ∧ ¬hasEdge G a b then addEdge G a b else G) G

/-- Outer loop of `_bridge_endpoints` over the index pairs `i < j`. -/
def bridgeLoop (q : ℚ) : Graph → List Node → Graph
  | G, [] => G
  | G, a :: rest => bridgeLoop q (bridgeInner q a G rest) rest

/-- `_bridge_endpoints(G, max_dist)`: add an edge between every pair of
degree-1 nodes of the input that are within `max_dist` and not adjacent.
The endpoint list is computed before any edge is added, as in the source. -/
def bridge_endpoints (G : Graph) (q : ℚ) : Graph :=
  bridgeLoop q G (endpointsOf G)

/-! ### Breadth-first search (`networkx` shortest-path helpers)

`nx.single_source_shortest_path_length` and `nx.shortest_path` are library
calls; they are modelled by a layered BFS that records, for every reached
node in discovery order, the tree path from the source. -/

/-- Expand one BFS layer: visit the frontier in order, and for each node its
neighbors in adjacency order, keeping the first discovery of each new node
together with its path from the source. -/
def expandFrontier (G : Graph) (frontier : List (Node × List Node))
    (seen : List Node) : List (Node × List Node) :=
  frontier.foldl (fun acc vp =>
    (neighborsG G vp.1).foldl (fun acc2 w =>
      if w ∈ seen ∨ acc2.any (fun e => e.1 = w) then acc2
      else acc2 ++ [(w, vp.2 ++ [w])]) acc) []

/-- Fueled BFS loop; the fuel `|nodes|` dominates the number of layers. -/
def bfsAux (G : Graph) : ℕ → List (Node × List Node) → List Node →
    List (Node × List Node) → List (Node × List Node)
  | 0, _, _, table => table
  | fuel + 1, frontier, seen, table =>
    let next := expandFrontier G frontier seen
    if next.isEmpty then table
    else bfsAux G fuel next (seen ++ next.map Prod.fst) (table ++ next)

/-- All nodes reachable from `s` with their BFS tree paths, in discovery
order (source first, then layer by layer). -/
def bfsTable (G : Graph) (s : Node) : List (Node × List Node) :=
  bfsAux G G.nodes.length [(s, [s])] [s] [(s, [s])]

/-- `nx.single_source_shortest_path_length(G, s)` as an association list in
discovery order. -/
def bfsLengths (G : Graph) (s : Node) : List (Node × ℕ) :=
  (bfsTable G s).map (fun e => (e.1, e.2.length - 1))

/-- `nx.shortest_path(G, s, t)` (empty if `t` is unreachable). -/
def shortestPathBFS (G : Graph) (s t : Node) : List Node :=
  (((bfsTable G s).find? (fun e => e.1 = t)).map Prod.snd).getD []

/-! ### Trunk (`find_trunk_longest_path`) -/

/-- `max(lengths, key=lambda k: lengths[k])`: the key of the first entry
attaining the maximal value (Python's `max` keeps the earliest maximum). -/
def argmaxD (table : List (Node × ℕ)) : Node :=
  match table with
  | [] => (0, 0)
  | e :: rest => (rest.foldl (fun best x => if x.2 > best.2 then x else best) e).1

/-- The per-endpoint sweep: BFS from `s`, take the farthest node `t`, and
keep the shortest path `s → t` when it is strictly longer than the best. -/
def trunkFromEndpoints (G : Graph) (eps : List Node) : List Node :=
  eps.foldl (fun best s =>
    let t := argmaxD (bfsLengths G s)
    let path := shortestPathBFS G s t
    if path.length > best.length then path else best) []

/-- The fallback sweep when the bridged graph has no degree-1 node: start
from the first node, go to the farthest node found by BFS. -/
def trunkFallback (H : Graph) : List Node :=
  match H.nodes with
  | [] => []
  | s :: _ => shortestPathBFS H s (argmaxD (bfsLengths H s))

/-- `find_trunk_longest_path(G)`: bridge a copy of the graph, then take the
longest endpoint-to-farthest-node shortest path, with the fallback above
when there is no endpoint. -/
def find_trunk_longest_path (G : Graph) : List Node :=
  let H := bridge_endpoints G (5 / 2)
  let eps := endpointsOf H
  if eps.isEmpty then trunkFallback H
  else trunkFromEndpoints H eps

/-- The Python call `find_trunk_longest_path(G)` as seen by the caller: the
returned trunk together with the caller's graph object after the call.  The
source rebinds its parameter to `G.copy()` before `_bridge_endpoints`
mutates it, so the caller's graph is the unmodified input while the trunk is
computed from the bridged copy. -/
def find_trunk_longest_path_call (G : Graph) : List Node × Graph :=
  (find_trunk_longest_path G, G)

/-! ### Branches (`extract_branches`, `_branch_paths_from_root`) -/

/-- Python tuple comparison on coordinate pairs (lexicographic). -/
def nodeLe (a b : Node) : Bool :=
  decide (a.1 < b.1 ∨ (a.1 = b.1 ∧ a.2 ≤ b.2))

/-- `tuple(sorted((a, b)))`: the canonical unordered key of an edge. -/
def edgeKey (a b : Node) : Node × Node :=
  if nodeLe a b then (a, b) else (b, a)

/-- One candidate push of the DFS: skip the neighbor when the edge to it is
already visited, otherwise record the edge and stack the extended frame. -/
def pushStep (node : Node) (path : List Node)
    (st : List (Node × Option Node × List Node) × List (Node × Node)) (nb : Node) :
    List (Node × Option Node × List Node) × List (Node × Node) :=
  let e := edgeKey node nb
  if e ∈ st.2 then st
  else ((nb, some node, path ++ [nb]) :: st.1, st.2 ++ [e])

/-- The work-stack loop of `_branch_paths_from_root`.  A frame is
`(node, parent, path)`; pushes record the traversed edge in the shared
visited set, and a frame whose node has no non-parent off-trunk neighbor
emits its path.  The Python stack pushes by appending and pops from the end,
which the cons-built push list reproduces. -/
def branchLoop (G : Graph) (trunk : List Node) :
    ℕ → List (Node × Option Node × List Node) → List (Node × Node) →
    List (List Node) × List (Node × Node)
  | _, [], visited => ([], visited)
  | 0, _, visited => ([], visited)
  | fuel + 1, (node, parent, path) :: stack, visited =>
    let nbrs := (neighborsG G node).filter (fun nb => some nb ≠ parent ∧ nb ∉ trunk)
    if nbrs.isEmpty then
      let r := branchLoop G trunk fuel stack visited
      (path :: r.1, r.2)
    else
      let pushed := nbrs.foldl (pushStep node path) ([], visited)
      branchLoop G trunk fuel (pushed.1 ++ stack) pushed.2

/-- `_branch_paths_from_root(G, root, trunk_set, visited_edges)`.  Every pop
either pushes frames (each consuming a fresh visited edge) or shrinks the
stack, so `|edges| + 1` fuel always runs the loop to completion. -/
def branch_paths_from_root (G : Graph) (trunk : List Node) (root : Node)
    (visited : List (Node × Node)) : List (List Node) × List (Node × Node) :=
  branchLoop G trunk (G.edges.length + 1) [(root, none, [root])] visited

/-- One neighbor of one trunk node in `extract_branches`: skip trunk
neighbors and already-visited attachment edges, otherwise mark the
attachment edge visited, run the branch DFS, and keep every collected path
(prefixed with the trunk node) of at least `min_len` nodes. -/
def extractStep (G : Graph) (trunk : List Node) (min_len : ℕ) (v : Node)
    (st : List (List Node) × List (Node × Node)) (nb : Node) :
    List (List Node) × List (Node × Node) :=
  if nb ∈ trunk then st
  else
    let e0 := edgeKey v nb
    if e0 ∈ st.2 then st
    else
      let r := branch_paths_from_root G trunk nb (st.2 ++ [e0])
      (st.1 ++ r.1.filterMap (fun p =>
        if min_len ≤ (v :: p).length then some (v :: p) else none),
       r.2)

/-- Inner loop of `extract_branches` over the neighbors of a trunk node. -/
def extractAtNode (G : Graph) (trunk : List Node) (min_len : ℕ)
    (st : List (List Node) × List (Node × Node)) (v : Node) :
    List (List Node) × List (Node × Node) :=
  (neighborsG G v).foldl (extractStep G trunk min_len v) st

/-- `extract_branches(G, trunk, min_len)`: DFS branch decomposition rooted
on the trunk with a visited-edge set shared across attachment points. -/
def extract_branches (G : Graph) (trunk : List Node) (min_len : ℕ) :
    List (List Node) :=
  (trunk.foldl (extractAtNode G trunk min_len) ([], [])).1

/-- The unordered edges between consecutive nodes of a path, in canonical
key form. -/
def pathEdges (p : List Node) : List (Node × Node) :=
  (p.zip p.tail).map (fun e => edgeKey e.1 e.2)

/-! ### Basic lemmas about the splitter state -/

theorem insertDesc_perm {α : Type} (key : α → ℚ) (x : α) (l : List α) :
    (insertDesc key x l).Perm (x :: l) := by
  induction l with
  | nil => simp [insertDesc]
  | cons y ys ih =>
    simp only [insertDesc]
    split
    · exact List.Perm.refl _
    · exact (List.Perm.cons y ih).trans (List.Perm.swap x y ys)

theorem sortDesc_perm {α : Type} (key : α → ℚ) (l : List α) :
    (sortDesc key l).Perm l := by
  induction l with
  | nil => simp [sortDesc]
  | cons x xs ih =>
    exact (insertDesc_perm key x (sortDesc key xs)).trans (ih.cons x)

theorem firstArgminAux_lt (rest : List ℚ) (bv : ℚ) (bi i : ℕ) (h : bi < i) :
    firstArgminAux rest bv bi i < i + rest.length := by
  induction rest generalizing bv bi i with
  | nil =>
    simp only [firstArgminAux, List.length_nil, Nat.add_zero]
    exact h
  | cons x xs ih =>
    simp only [firstArgminAux, List.length_cons]
    split
    · have := ih x i (i + 1) (Nat.lt_succ_self i)
      omega
    · have := ih bv bi (i + 1) (h.trans (Nat.lt_succ_self i))
      omega

theorem firstArgmin_lt (l : List ℚ) (h : l ≠ []) : firstArgmin l < l.length := by
  cases l with
  | nil => exact absurd rfl h
  | cons x rest =>
    have := firstArgminAux_lt rest x 0 1 Nat.zero_lt_one
    simp only [firstArgmin, List.length_cons]
    omega

theorem flatten_set_append {α : Type} (l : List (List α)) (k : ℕ) (x : α)
    (hk : k < l.length) :
    ((l.set k (l.getD k [] ++ [x])).flatten).Perm (x :: l.flatten) := by
  induction l generalizing k with
  | nil => simp at hk
  | cons a tl ih =>
    cases k with
    | zero =>
      simp only [List.set, List.getD_cons_zero, List.flatten_cons]
      have h1 : (a ++ [x] ++ tl.flatten).Perm (a ++ x :: tl.flatten) := by
        simpa using List.Perm.append_right tl.flatten (List.perm_append_singleton x a)
      exact h1.trans List.perm_middle
    | succ k =>
      have hk2 : k < tl.length := by simpa using hk
      have h1 := ih k hk2
      simp only [List.set, List.getD_cons_succ, List.flatten_cons]
      exact (List.Perm.append_left a h1).trans List.perm_middle

theorem splitStep_lengths {α : Type} (routes : List (List α)) (lengths : List ℚ)
    (st : List (List (List α)) × List ℚ) (idx : ℕ) :
    (splitStep routes lengths st idx).1.length = st.1.length ∧
    (splitStep routes lengths st idx).2.length = st.2.length := by
  simp [splitStep]

theorem splitFold_flatten_perm {α : Type} (routes : List (List α)) (lengths : List ℚ)
    (order : List ℕ) (st : List (List (List α)) × List ℚ)
    (hm : st.1.length = st.2.length) (hpos : 0 < st.2.length) :
    ((order.foldl (splitStep routes lengths) st).1.flatten).Perm
      (st.1.flatten ++ order.map (fun idx => routes.getD idx [])) := by
  induction order generalizing st with
  | nil => simp
  | cons idx rest ih =>
    have hk : firstArgmin st.2 < st.1.length := by
      rw [hm]
      exact firstArgmin_lt st.2 (List.ne_nil_of_length_pos hpos)
    have hstep := splitStep_lengths routes lengths st idx
    have h1 := ih (splitStep routes lengths st idx)
      (by rw [hstep.1, hstep.2]; exact hm) (by rw [hstep.2]; exact hpos)
    have h2 : ((splitStep routes lengths st idx).1.flatten).Perm
        (routes.getD idx [] :: st.1.flatten) :=
      flatten_set_append st.1 (firstArgmin st.2) (routes.getD idx []) hk
    simp only [List.foldl_cons, List.map_cons]
    have h3 : ((splitStep routes lengths st idx).1.flatten ++
        rest.map (fun idx => routes.getD idx [])).Perm
        (st.1.flatten ++ routes.getD idx [] :: rest.map (fun idx => routes.getD idx [])) :=
      (List.Perm.append_right _ h2).trans List.perm_middle.symm
    exact h1.trans h3

theorem map_getD_range {α : Type} (l : List α) (d : α) :
    (List.range l.length).map (fun i => l.getD i d) = l := by
  induction l with
  | nil => simp
  | cons a tl ih =>
    rw [List.length_cons, List.range_succ_eq_map, List.map_cons, List.map_map]
    simp only [List.getD_cons_zero, Function.comp_def, List.getD_cons_succ]
    rw [ih]

theorem join_foldl_filter {α : Type} [DecidableEq α] (rl : List (List α)) (coords : List α) :
    rl.foldl joinStep coords =
      (rl.filter (fun s => 2 ≤ s.length)).foldl joinStep coords := by
  induction rl generalizing coords with
  | nil => rfl
  | cons s rest ih =>
    by_cases h : 2 ≤ s.length
    · rw [List.foldl_cons, List.filter_cons_of_pos (by simpa using h), List.foldl_cons, ih]
    · have hlt : s.length < 2 := Nat.lt_of_not_le h
      rw [List.foldl_cons, List.filter_cons_of_neg (by simpa using h)]
      rw [show joinStep coords s = coords from by simp [joinStep, hlt], ih]

theorem bridge_of_no_endpoints (G : Graph) (q : ℚ) (h : endpointsOf G = []) :
    bridge_endpoints G q = G := by
  rw [bridge_endpoints, h]
  rfl

/-! ### Lemmas about edge insertion and bridging -/

/-- `{x, y}` is the unordered pair `{a, b}`. -/
def pairMatch (x y a b : Node) : Prop :=
  (x = a ∧ y = b) ∨ (x = b ∧ y = a)

theorem distSqLe_symm (a b : Node) (q : ℚ) : distSqLe a b q = distSqLe b a q := by
  simp only [distSqLe]
  ring_nf

theorem hasEdge_symm (G : Graph) (u v : Node) : hasEdge G u v = hasEdge G v u := by
  simp only [hasEdge]
  congr 1
  funext e
  rw [decide_eq_decide]
  tauto

theorem addNode_nodes_of_mem (G : Graph) (n : Node) (h : n ∈ G.nodes) :
    addNode G n = G := by
  simp [addNode, h]

theorem addEdge_nodes_of_mem (G : Graph) (u v : Node)
    (hu : u ∈ G.nodes) (hv : v ∈ G.nodes) :
    (addEdge G u v).nodes = G.nodes := by
  rw [addEdge]
  rw [addNode_nodes_of_mem G u hu, addNode_nodes_of_mem G v hv]
  split <;> rfl

theorem hasEdge_addEdge (G : Graph) (u v x y : Node)
    (hu : u ∈ G.nodes) (hv : v ∈ G.nodes) :
    (hasEdge (addEdge G u v) x y = true ↔
      hasEdge G x y = true ∨ pairMatch x y u v) := by
  rw [addEdge, addNode_nodes_of_mem G u hu, addNode_nodes_of_mem G v hv]
  by_cases h : hasEdge G u v = true
  · rw [if_pos h]
    constructor
    · intro hx
      exact Or.inl hx
    · rintro (hx | hpm)
      · exact hx
      · rcases hpm with ⟨hx, hy⟩ | ⟨hx, hy⟩
        · subst hx; subst hy; exact h
        · subst hx; subst hy; rw [hasEdge_symm]; exact h
  · rw [if_neg h]
    simp only [hasEdge, List.any_append, List.any_cons, List.any_nil, Bool.or_eq_true,
      Bool.or_false, decide_eq_true_eq]
    constructor
    · rintro (hx | hx)
      · exact Or.inl (by simpa [hasEdge, List.any_eq] using hx)
      · refine Or.inr ?_
        unfold pairMatch
        rcases hx with ⟨h1, h2⟩ | ⟨h1, h2⟩
        · exact Or.inl ⟨h1.symm, h2.symm⟩
        · exact Or.inr ⟨h2.symm, h1.symm⟩
    · rintro (hx | hx)
      · exact Or.inl (by simpa [hasEdge, List.any_eq] using hx)
      · refine Or.inr ?_
        unfold pairMatch at hx
        rcases hx with ⟨h1, h2⟩ | ⟨h1, h2⟩
        · exact Or.inl ⟨h1.symm, h2.symm⟩
        · exact Or.inr ⟨h2.symm, h1.symm⟩

theorem bridgeInner_spec (q : ℚ) (a : Node) (rest : List Node) (G : Graph)
    (ha : a ∈ G.nodes) (hrest : ∀ b ∈ rest, b ∈ G.nodes)
    (hna : a ∉ rest) (hnd : rest.Nodup) :
    (bridgeInner q a G rest).nodes = G.nodes ∧
    ∀ x y, (hasEdge (bridgeInner q a G rest) x y = true ↔
      hasEdge G x y = true ∨
        ∃ b ∈ rest, distSqLe a b q = true ∧ pairMatch x y a b) := by
  induction rest generalizing G with
  | nil => simp [bridgeInner]
  | cons b rest2 ih =>
    have hb : b ∈ G.nodes := hrest b (by simp)
    have hstep : bridgeInner q a G (b :: rest2) =
        bridgeInner q a (if distSqLe a b q ∧ ¬hasEdge G a b then addEdge G a b else G) rest2 := by
      simp only [bridgeInner, List.foldl_cons]
    set G2 := if distSqLe a b q ∧ ¬hasEdge G a b then addEdge G a b else G with hG2
    have hn2 : G2.nodes = G.nodes := by
      rw [hG2]; split
      · exact addEdge_nodes_of_mem G a b ha hb
      · rfl
    have hedge2 : ∀ x y, (hasEdge G2 x y = true ↔
        hasEdge G x y = true ∨ (distSqLe a b q = true ∧ pairMatch x y a b)) := by
      intro x y
      rw [hG2]
      by_cases hd : distSqLe a b q = true
      · by_cases he : hasEdge G a b = true
        · rw [if_neg (by simp [he])]
          constructor
          · exact Or.inl
          · rintro (hx | ⟨_, hpm⟩)
            · exact hx
            · rcases hpm with ⟨hx, hy⟩ | ⟨hx, hy⟩
              · subst hx; subst hy; exact he
              · subst hx; subst hy; rw [hasEdge_symm]; exact he
        · rw [if_pos (by simp [hd, he])]
          rw [hasEdge_addEdge G a b x y ha hb]
          tauto
      · rw [if_neg (by simp [hd])]
        tauto
    have ih2 := ih G2 (hn2 ▸ ha)
      (fun c hc => hn2 ▸ hrest c (by simp [hc]))
      (fun hc => hna (by simp [hc]))
      (List.Nodup.of_cons hnd)
    refine ⟨by rw [hstep]; rw [ih2.1, hn2], ?_⟩
    intro x y
    rw [hstep, ih2.2 x y]
    constructor
    · rintro (hx | ⟨c, hc, hdc, hpc⟩)
      · rcases (hedge2 x y).mp hx with hx2 | ⟨hd2, hp2⟩
        · exact Or.inl hx2
        · exact Or.inr ⟨b, by simp, hd2, hp2⟩
      · exact Or.inr ⟨c, by simp [hc], hdc, hpc⟩
    · rintro (hx | ⟨c, hc, hdc, hpc⟩)
      · exact Or.inl ((hedge2 x y).mpr (Or.inl hx))
      · rcases List.mem_cons.mp hc with hcb | hc2
        · subst hcb
          exact Or.inl ((hedge2 x y).mpr (Or.inr ⟨hdc, hpc⟩))
        · exact Or.inr ⟨c, hc2, hdc, hpc⟩

theorem bridgeLoop_spec (q : ℚ) (eps : List Node) (G : Graph)
    (heps : ∀ b ∈ eps, b ∈ G.nodes) (hnd : eps.Nodup) :
    (bridgeLoop q G eps).nodes = G.nodes ∧
    ∀ x y, (hasEdge (bridgeLoop q G eps) x y = true ↔
      hasEdge G x y = true ∨
        ∃ a b, a ∈ eps ∧ b ∈ eps ∧ a ≠ b ∧ distSqLe a b q = true ∧ pairMatch x y a b) := by
  induction eps generalizing G with
  | nil => simp [bridgeLoop]
  | cons a rest ih =>
    have ha : a ∈ G.nodes := heps a (by simp)
    have hrest : ∀ b ∈ rest, b ∈ G.nodes := fun b hb => heps b (by simp [hb])
    have hna : a ∉ rest := (List.nodup_cons.mp hnd).1
    have hnd2 : rest.Nodup := (List.nodup_cons.mp hnd).2
    have hinner := bridgeInner_spec q a rest G ha hrest hna hnd2
    have hloop : bridgeLoop q G (a :: rest) = bridgeLoop q (bridgeInner q a G rest) rest := rfl
    have ih2 := ih (bridgeInner q a G rest)
      (fun b hb => hinner.1 ▸ hrest b hb) hnd2
    refine ⟨by rw [hloop, ih2.1, hinner.1], ?_⟩
    intro x y
    rw [hloop, ih2.2 x y]
    constructor
    · rintro (hx | ⟨a2, b2, ha2, hb2, hab, hd2, hp2⟩)
      · rcases (hinner.2 x y).mp hx with hx2 | ⟨b, hb, hd2, hp2⟩
        · exact Or.inl hx2
        · exact Or.inr ⟨a, b, by simp, by simp [hb],
            fun h => hna (h ▸ hb), hd2, hp2⟩
      · exact Or.inr ⟨a2, b2, by simp [ha2], by simp [hb2], hab, hd2, hp2⟩
    · rintro (hx | ⟨a2, b2, ha2, hb2, hab, hd2, hp2⟩)
      · exact Or.inl ((hinner.2 x y).mpr (Or.inl hx))
      · rcases List.mem_cons.mp ha2 with haa | ha3
        · subst haa
          rcases List.mem_cons.mp hb2 with hbb | hb3
          · exact absurd hbb.symm hab
          · exact Or.inl ((hinner.2 x y).mpr (Or.inr ⟨b2, hb3, hd2, hp2⟩))
        · rcases List.mem_cons.mp hb2 with hbb | hb3
          · subst hbb
            refine Or.inl ((hinner.2 x y).mpr (Or.inr ⟨a2, ha3, ?_, ?_⟩))
            · rw [distSqLe_symm]; exact hd2
            · unfold pairMatch at hp2 ⊢; tauto
          · exact Or.inr ⟨a2, b2, ha3, hb3, hab, hd2, hp2⟩

/-! ### Lemmas about branch extraction -/

theorem neighborsG_hasEdge (G : Graph) (u nb : Node) (h : nb ∈ neighborsG G u) :
    hasEdge G u nb = true := by
  rw [neighborsG, List.mem_filterMap] at h
  obtain ⟨e, he, hsome⟩ := h
  rw [hasEdge, List.any_eq_true]
  by_cases h1 : e.1 = u
  · rw [if_pos h1] at hsome
    exact ⟨e, he, by simp [h1, Option.some_inj.mp hsome]⟩
  · rw [if_neg h1] at hsome
    by_cases h2 : e.2 = u
    · rw [if_pos h2] at hsome
      exact ⟨e, he, by simp [h2, Option.some_inj.mp hsome]⟩
    · rw [if_neg h2] at hsome
      exact absurd hsome (by simp)

theorem edgeKey_cases (a b : Node) : edgeKey a b = (a, b) ∨ edgeKey a b = (b, a) := by
  rw [edgeKey]
  split
  · exact Or.inl rfl
  · exact Or.inr rfl

theorem pathEdges_two_cons (a b : Node) (l : List Node) :
    pathEdges (a :: b :: l) = edgeKey a b :: pathEdges (b :: l) := rfl

theorem pathEdges_concat (p : List Node) (u nb : Node) (h : p.getLast? = some u) :
    pathEdges (p ++ [nb]) = pathEdges p ++ [edgeKey u nb] := by
  induction p with
  | nil => simp at h
  | cons x tl ih =>
    cases tl with
    | nil =>
      simp only [List.getLast?_singleton, Option.some_inj] at h
      subst h
      rfl
    | cons y tl2 =>
      have h2 : (y :: tl2).getLast? = some u := by
        rwa [List.getLast?_cons_cons] at h
      have h3 := ih h2
      simp only [List.cons_append] at h3 ⊢
      rw [pathEdges_two_cons, pathEdges_two_cons, h3]
      simp

theorem pathEdges_endpoints (p : List Node) (e : Node × Node) (h : e ∈ pathEdges p) :
    e.1 ∈ p ∧ e.2 ∈ p := by
  induction p with
  | nil => simp [pathEdges] at h
  | cons a tl ih =>
    cases tl with
    | nil => simp [pathEdges] at h
    | cons b tl2 =>
      rw [pathEdges_two_cons, List.mem_cons] at h
      rcases h with h | h
      · rcases edgeKey_cases a b with hk | hk
        · rw [hk] at h; subst h
          exact ⟨by simp, by simp⟩
        · rw [hk] at h; subst h
          exact ⟨by simp, by simp⟩
      · have := ih h
        exact ⟨List.mem_cons_of_mem a this.1, List.mem_cons_of_mem a this.2⟩

/-- Adjacency of consecutive nodes of a path, as stated for branches. -/
def pathChain (G : Graph) (p : List Node) : Prop :=
  List.Chain' (fun a b => hasEdge G a b = true) p

/-- The soundness facts carried by every emitted DFS path: rooted at the DFS
root, strictly off the trunk, consecutive nodes adjacent, no repeated edge,
and no edge that was already visited when the DFS call started. -/
def PathOut (G : Graph) (trunk : List Node) (V0 : List (Node × Node))
    (root : Node) (p : List Node) : Prop :=
  p.head? = some root ∧ (∀ x ∈ p, x ∉ trunk) ∧ pathChain G p ∧
  (pathEdges p).Nodup ∧ ∀ e ∈ pathEdges p, e ∉ V0

/-- The invariant of a DFS stack frame `(node, parent, path)` with respect
to the current visited set. -/
def FrameInv (G : Graph) (trunk : List Node) (V0 visited : List (Node × Node))
    (root : Node) (fr : Node × Option Node × List Node) : Prop :=
  fr.2.2.head? = some root ∧ fr.2.2.getLast? = some fr.1 ∧
  (∀ x ∈ fr.2.2, x ∉ trunk) ∧ pathChain G fr.2.2 ∧
  (pathEdges fr.2.2).Nodup ∧
  ∀ e ∈ pathEdges fr.2.2, e ∈ visited ∧ e ∉ V0

theorem FrameInv.mono {G : Graph} {trunk : List Node} {V0 visited visited2 : List (Node × Node)}
    {root : Node} {fr : Node × Option Node × List Node}
    (h : FrameInv G trunk V0 visited root fr)
    (hsub : ∀ e ∈ visited, e ∈ visited2) :
    FrameInv G trunk V0 visited2 root fr :=
  ⟨h.1, h.2.1, h.2.2.1, h.2.2.2.1, h.2.2.2.2.1,
    fun e he => ⟨hsub e (h.2.2.2.2.2 e he).1, (h.2.2.2.2.2 e he).2⟩⟩

theorem pushFold_sound (G : Graph) (trunk : List Node) (V0 : List (Node × Node))
    (root node : Node) (path : List Node)
    (hhead : path.head? = some root) (hlast : path.getLast? = some node)
    (hoff : ∀ x ∈ path, x ∉ trunk) (hchain : pathChain G path)
    (hnodup : (pathEdges path).Nodup) :
    ∀ (nbrs : List Node) (st : List (Node × Option Node × List Node) × List (Node × Node)),
    (∀ nb ∈ nbrs, nb ∈ neighborsG G node ∧ nb ∉ trunk) →
    (∀ e ∈ V0, e ∈ st.2) →
    (∀ e ∈ pathEdges path, e ∈ st.2 ∧ e ∉ V0) →
    (∀ fr ∈ st.1, FrameInv G trunk V0 st.2 root fr) →
    (∀ e ∈ st.2, e ∈ (nbrs.foldl (pushStep node path) st).2) ∧
    (∀ fr ∈ (nbrs.foldl (pushStep node path) st).1,
      FrameInv G trunk V0 (nbrs.foldl (pushStep node path) st).2 root fr) := by
  intro nbrs
  induction nbrs with
  | nil =>
    intro st _ _ _ hfr
    exact ⟨fun e he => he, hfr⟩
  | cons nb rest ih =>
    intro st hn hV0 hpe hfr
    rw [List.foldl_cons]
    by_cases hvis : edgeKey node nb ∈ st.2
    · have hstep : pushStep node path st nb = st := by
        simp [pushStep, hvis]
      rw [hstep]
      exact ih st (fun c hc => hn c (by simp [hc])) hV0 hpe hfr
    · have hstep : pushStep node path st nb =
          ((nb, some node, path ++ [nb]) :: st.1, st.2 ++ [edgeKey node nb]) := by
        simp [pushStep, hvis]
      rw [hstep]
      have hpne : path ≠ [] := by
        intro hp
        rw [hp] at hhead
        simp at hhead
      have hpe2 : pathEdges (path ++ [nb]) = pathEdges path ++ [edgeKey node nb] :=
        pathEdges_concat path node nb hlast
      have hnb := hn nb (by simp)
      have hframe : FrameInv G trunk V0 (st.2 ++ [edgeKey node nb]) root
          (nb, some node, path ++ [nb]) := by
        refine ⟨?_, ?_, ?_, ?_, ?_, ?_⟩
        · simpa [List.head?_append_of_ne_nil, hpne] using hhead
        · simp
        · intro x hx
          rcases List.mem_append.mp hx with hx | hx
          · exact hoff x hx
          · rw [List.mem_singleton] at hx
            subst hx
            exact hnb.2
        · refine List.Chain'.append hchain (by simp [pathChain]) ?_
          intro x hx y hy
          rw [hlast, Option.mem_def, Option.some_inj] at hx
          simp only [List.head?_cons, Option.mem_def, Option.some_inj] at hy
          subst hx; subst hy
          exact neighborsG_hasEdge G node nb hnb.1
        · rw [hpe2]
          refine List.Nodup.append hnodup (by simp) ?_
          intro e he
          simp only [List.mem_singleton]
          intro hek
          subst hek
          exact hvis (hpe _ he).1
        · intro e he
          rw [hpe2] at he
          rcases List.mem_append.mp he with he | he
          · exact ⟨by simp [(hpe e he).1], (hpe e he).2⟩
          · rw [List.mem_singleton] at he
            subst he
            refine ⟨by simp, fun hV => hvis (hV0 _ hV)⟩
      have hres := ih ((nb, some node, path ++ [nb]) :: st.1, st.2 ++ [edgeKey node nb])
        (fun c hc => hn c (by simp [hc]))
        (fun e he => by simp [hV0 e he])
        (fun e he => ⟨by simp [(hpe e he).1], (hpe e he).2⟩)
        (by
          intro fr hfr2
          rcases List.mem_cons.mp hfr2 with hfr2 | hfr2
          · subst hfr2; exact hframe
          · exact (hfr fr hfr2).mono (fun e he => by simp [he]))
      exact ⟨fun e he => hres.1 e (by simp [he]), hres.2⟩

theorem branchLoop_sound (G : Graph) (trunk : List Node) (V0 : List (Node × Node))
    (root : Node) :
    ∀ (fuel : ℕ) (stack : List (Node × Option Node × List Node))
      (visited : List (Node × Node)),
    (∀ e ∈ V0, e ∈ visited) →
    (∀ fr ∈ stack, FrameInv G trunk V0 visited root fr) →
    ∀ p ∈ (branchLoop G trunk fuel stack visited).1, PathOut G trunk V0 root p := by
  intro fuel
  induction fuel with
  | zero =>
    intro stack visited _ _ p hp
    cases stack with
    | nil => simp [branchLoop] at hp
    | cons fr stack2 => simp [branchLoop] at hp
  | succ fuel ih =>
    intro stack visited hV0 hfr p hp
    cases stack with
    | nil => simp [branchLoop] at hp
    | cons fr stack2 =>
      obtain ⟨node, parent, path⟩ := fr
      have hfr1 := hfr (node, parent, path) (by simp)
      rw [branchLoop] at hp
      by_cases hnil :
          ((neighborsG G node).filter (fun nb => some nb ≠ parent ∧ nb ∉ trunk)).isEmpty
      · rw [if_pos hnil] at hp
        rcases List.mem_cons.mp hp with hp | hp
        · subst hp
          exact ⟨hfr1.1, hfr1.2.2.1, hfr1.2.2.2.1, hfr1.2.2.2.2.1,
            fun e he => (hfr1.2.2.2.2.2 e he).2⟩
        · exact ih stack2 visited hV0 (fun fr2 hfr2 => hfr fr2 (by simp [hfr2])) p hp
      · rw [if_neg hnil] at hp
        have hpush := pushFold_sound G trunk V0 root node path hfr1.1 hfr1.2.1
          hfr1.2.2.1 hfr1.2.2.2.1 hfr1.2.2.2.2.1
          ((neighborsG G node).filter (fun nb => some nb ≠ parent ∧ nb ∉ trunk))
          ([], visited)
          (by
            intro nb hnb
            rw [List.mem_filter] at hnb
            refine ⟨hnb.1, ?_⟩
            have := hnb.2
            simp only [decide_eq_true_eq] at this
            exact this.2)
          hV0 hfr1.2.2.2.2.2 (by simp)
        exact ih _ _
          (fun e he => hpush.1 e (hV0 e he))
          (by
            intro fr2 hfr2
            rcases List.mem_append.mp hfr2 with hfr2 | hfr2
            · exact hpush.2 fr2 hfr2
            · exact (hfr fr2 (by simp [hfr2])).mono hpush.1)
          p hp

/-- Everything `extract_branches` guarantees about a returned branch. -/
def BranchOK (G : Graph) (trunk : List Node) (min_len : ℕ) (b : List Node) : Prop :=
  min_len ≤ b.length ∧
  (∃ v p, b = v :: p ∧ v ∈ trunk ∧ ∀ x ∈ p, x ∉ trunk) ∧
  pathChain G b ∧ (pathEdges b).Nodup ∧
  ∀ e ∈ pathEdges b, ¬(e.1 ∈ trunk ∧ e.2 ∈ trunk)

theorem extractStep_sound (G : Graph) (trunk : List Node) (min_len : ℕ) (v : Node)
    (hv : v ∈ trunk) (st : List (List Node) × List (Node × Node)) (nb : Node)
    (hnb : nb ∈ neighborsG G v)
    (hst : ∀ b ∈ st.1, BranchOK G trunk min_len b) :
    ∀ b ∈ (extractStep G trunk min_len v st nb).1, BranchOK G trunk min_len b := by
  intro b hb
  rw [extractStep] at hb
  by_cases htr : nb ∈ trunk
  · rw [if_pos htr] at hb
    exact hst b hb
  · rw [if_neg htr] at hb
    by_cases hvis : edgeKey v nb ∈ st.2
    · rw [if_pos hvis] at hb
      exact hst b hb
    · rw [if_neg hvis] at hb
      simp only at hb
      rcases List.mem_append.mp hb with hb | hb
      · exact hst b hb
      · rw [List.mem_filterMap] at hb
        obtain ⟨p, hp, hsome⟩ := hb
        by_cases hlen : min_len ≤ (v :: p).length
        · rw [if_pos hlen, Option.some_inj] at hsome
          subst hsome
          have hout : PathOut G trunk (st.2 ++ [edgeKey v nb]) nb p := by
            refine branchLoop_sound G trunk (st.2 ++ [edgeKey v nb]) nb
              (G.edges.length + 1) [(nb, none, [nb])] (st.2 ++ [edgeKey v nb])
              (fun e he => he) ?_ p hp
            intro fr hfr
            rw [List.mem_singleton] at hfr
            subst hfr
            refine ⟨rfl, rfl, ?_, ?_, by simp [pathEdges], by simp [pathEdges]⟩
            · intro x hx
              rw [List.mem_singleton] at hx
              subst hx
              exact htr
            · simp [pathChain]
          obtain ⟨hhead, hoff, hchain, hnodup, hV0⟩ := hout
          obtain ⟨p2, hp2⟩ : ∃ p2, p = nb :: p2 := by
            cases p with
            | nil => simp at hhead
            | cons a p2 =>
              simp only [List.head?_cons, Option.some_inj] at hhead
              exact ⟨p2, by rw [hhead]⟩
          subst hp2
          have hkey : pathEdges (v :: nb :: p2) = edgeKey v nb :: pathEdges (nb :: p2) :=
            pathEdges_two_cons v nb p2
          refine ⟨hlen, ⟨v, nb :: p2, rfl, hv, hoff⟩, ?_, ?_, ?_⟩
          · rw [pathChain, List.chain'_cons]
            exact ⟨neighborsG_hasEdge G v nb hnb, hchain⟩
          · rw [hkey]
            refine List.nodup_cons.mpr ⟨?_, hnodup⟩
            intro hmem
            exact hV0 _ hmem (by simp)
          · intro e he
            rw [hkey, List.mem_cons] at he
            rcases he with he | he
            · subst he
              rcases edgeKey_cases v nb with hk | hk <;> rw [hk]
              · exact fun hc => htr hc.2
              · exact fun hc => htr hc.1
            · have hend := pathEdges_endpoints (nb :: p2) e he
              exact fun hc => hoff e.1 hend.1 hc.1
        · rw [if_neg hlen] at hsome
          exact absurd hsome (by simp)

theorem extractAtNode_sound (G : Graph) (trunk : List Node) (min_len : ℕ) (v : Node)
    (hv : v ∈ trunk) :
    ∀ (nbs : List Node) (st : List (List Node) × List (Node × Node)),
    (∀ nb ∈ nbs, nb ∈ neighborsG G v) →
    (∀ b ∈ st.1, BranchOK G trunk min_len b) →
    ∀ b ∈ (nbs.foldl (extractStep G trunk min_len v) st).1, BranchOK G trunk min_len b := by
  intro nbs
  induction nbs with
  | nil => intro st _ hst b hb; exact hst b hb
  | cons nb rest ih =>
    intro st hn hst
    rw [List.foldl_cons]
    exact ih (extractStep G trunk min_len v st nb)
      (fun c hc => hn c (by simp [hc]))
      (extractStep_sound G trunk min_len v hv st nb (hn nb (by simp)) hst)

theorem extract_branches_sound (G : Graph) (trunk : List Node) (min_len : ℕ) :
    ∀ b ∈ extract_branches G trunk min_len, BranchOK G trunk min_len b := by
  have main : ∀ (vs : List Node), (∀ v ∈ vs, v ∈ trunk) →
      ∀ (st : List (List Node) × List (Node × Node)),
      (∀ b ∈ st.1, BranchOK G trunk min_len b) →
      ∀ b ∈ (vs.foldl (extractAtNode G trunk min_len) st).1, BranchOK G trunk min_len b := by
    intro vs
    induction vs with
    | nil => intro _ st hst b hb; exact hst b hb
    | cons v rest ih =>
      intro hvs st hst
      rw [List.foldl_cons]
      refine ih (fun c hc => hvs c (by simp [hc])) _ ?_
      exact extractAtNode_sound G trunk min_len v (hvs v (by simp))
        (neighborsG G v) st (fun nb h => h) hst
  exact main trunk (fun v hv => hv) ([], []) (by simp)

/-! ### The LPT bound for the splitter (`split_routes_for_agents`) -/

/-- The `bucket_len` evolution of the splitter in terms of the job values
alone: each value is added to the first least-loaded bucket. -/
def greedyStepL (B : List ℚ) (v : ℚ) : List ℚ :=
  B.set (firstArgmin B) (B.getD (firstArgmin B) 0 + v)

/-- Run the greedy balancer over a list of job values. -/
def greedyRun (vals : List ℚ) (B : List ℚ) : List ℚ :=
  vals.foldl greedyStepL B

/-- The total load that assignment `σ` places on bucket `j`, for the job
values `ℓ` (job indices `0 .. ℓ.length - 1`). -/
def loadOf (ℓ : List ℚ) (σ : ℕ → ℕ) (j : ℕ) : ℚ :=
  Finset.sum ((Finset.range ℓ.length).filter (fun i => σ i = j))
    (fun i => ℓ.getD i 0)

/-- The pair loads formed by the greedy run on descending values that are
all larger than a third of the target makespan: the `i`-th pair joins the
`i`-th-from-last first-phase value with the `i`-th second-phase value. -/
def pairsList (vals : List ℚ) (m j : ℕ) : List ℚ :=
  (List.range j).map (fun i => vals.getD (m - 1 - i) 0 + vals.getD (m + i) 0)

theorem splitFold_snd {α : Type} (routes : List (List α)) (lengths : List ℚ) :
    ∀ (idxs : List ℕ) (st : List (List (List α)) × List ℚ),
    (idxs.foldl (splitStep routes lengths) st).2 =
      greedyRun (idxs.map (fun i => lengths.getD i 0)) st.2 := by
  intro idxs
  induction idxs with
  | nil => intro st; rfl
  | cons i rest ih =>
    intro st
    rw [List.foldl_cons, ih]
    rfl

theorem greedyRun_length : ∀ (vals B : List ℚ), (greedyRun vals B).length = B.length := by
  intro vals
  induction vals with
  | nil => intro B; rfl
  | cons v rest ih =>
    intro B
    show (greedyRun rest (greedyStepL B v)).length = B.length
    rw [ih]
    simp [greedyStepL]

theorem sum_set_add : ∀ (B : List ℚ) (k : ℕ) (v : ℚ), k < B.length →
    (B.set k (B.getD k 0 + v)).sum = B.sum + v := by
  intro B
  induction B with
  | nil => intro k v h; simp at h
  | cons b rest ih =>
    intro k v h
    cases k with
    | zero =>
      simp only [List.set_cons_zero, List.getD_cons_zero, List.sum_cons]
      ring
    | succ k2 =>
      have h2 : k2 < rest.length := by simpa using h
      simp only [List.set_cons_succ, List.getD_cons_succ, List.sum_cons]
      rw [ih k2 v h2]
      ring

theorem greedyRun_sum : ∀ (vals B : List ℚ), B ≠ [] →
    (greedyRun vals B).sum = B.sum + vals.sum := by
  intro vals
  induction vals with
  | nil => intro B _; simp [greedyRun]
  | cons v rest ih =>
    intro B hB
    show (greedyRun rest (greedyStepL B v)).sum = B.sum + (v :: rest).sum
    have hlen : greedyStepL B v ≠ [] := by
      intro h
      have h2 := congrArg List.length h
      simp only [greedyStepL, List.length_set, List.length_nil] at h2
      exact hB (List.length_eq_zero.mp h2)
    rw [ih _ hlen]
    rw [show (greedyStepL B v).sum = B.sum + v from
      sum_set_add B _ v (firstArgmin_lt B hB)]
    rw [List.sum_cons]
    ring

theorem firstArgminAux_min : ∀ (rest : List ℚ) (bv : ℚ) (bi i : ℕ) (B : List ℚ),
    B.getD bi 0 = bv →
    (∀ r, r < rest.length → B.getD (i + r) 0 = rest.getD r 0) →
    B.getD (firstArgminAux rest bv bi i) 0 ≤ bv ∧
    ∀ r, r < rest.length → B.getD (firstArgminAux rest bv bi i) 0 ≤ rest.getD r 0 := by
  intro rest
  induction rest with
  | nil =>
    intro bv bi i B hbv _
    refine ⟨le_of_eq hbv, ?_⟩
    intro r hr
    simp at hr
  | cons x rest2 ih =>
    intro bv bi i B hbv hrest
    have hx : B.getD i 0 = x := by
      have h := hrest 0 (by simp)
      simpa using h
    have hshift : ∀ r, r < rest2.length → B.getD (i + 1 + r) 0 = rest2.getD r 0 := by
      intro r hr
      have h := hrest (r + 1) (by simp; omega)
      rw [show i + (r + 1) = i + 1 + r by omega] at h
      simpa using h
    by_cases hcmp : x < bv
    · rw [show firstArgminAux (x :: rest2) bv bi i = firstArgminAux rest2 x i (i + 1)
        from by rw [firstArgminAux, if_pos hcmp]]
      obtain ⟨h1, h2⟩ := ih x i (i + 1) B hx hshift
      refine ⟨le_trans h1 (le_of_lt hcmp), ?_⟩
      intro r hr
      cases r with
      | zero => simpa using h1
      | succ r2 => exact h2 r2 (by simpa using hr)
    · rw [show firstArgminAux (x :: rest2) bv bi i = firstArgminAux rest2 bv bi (i + 1)
        from by rw [firstArgminAux, if_neg hcmp]]
      obtain ⟨h1, h2⟩ := ih bv bi (i + 1) B hbv hshift
      refine ⟨h1, ?_⟩
      intro r hr
      cases r with
      | zero =>
        show B.getD _ 0 ≤ x
        exact le_trans h1 (le_of_not_lt hcmp)
      | succ r2 => exact h2 r2 (by simpa using hr)

theorem firstArgmin_min (B : List ℚ) (x : ℚ) (hx : x ∈ B) :
    B.getD (firstArgmin B) 0 ≤ x := by
  cases B with
  | nil => simp at hx
  | cons b rest =>
    have h := firstArgminAux_min rest b 0 1 (b :: rest) rfl
      (fun r _ => by
        rw [show 1 + r = r + 1 from Nat.add_comm 1 r]
        exact List.getD_cons_succ)
    rw [show firstArgmin (b :: rest) = firstArgminAux rest b 0 1 from rfl]
    rcases List.mem_cons.mp hx with rfl | hx2
    · exact h.1
    · obtain ⟨r, hr, hget⟩ := List.getElem_of_mem hx2
      have := h.2 r hr
      rwa [List.getD_eq_getElem rest 0 hr, hget] at this

theorem desc_getD (vals : List ℚ)
    (hdesc : List.Pairwise (fun x y : ℚ => y ≤ x) vals)
    {i k : ℕ} (hik : i ≤ k) (hk : k < vals.length) :
    vals.getD k 0 ≤ vals.getD i 0 := by
  rcases eq_or_lt_of_le hik with rfl | hlt
  · exact le_refl _
  · have hi : i < vals.length := lt_trans hlt hk
    rw [List.getD_eq_getElem vals 0 hk, List.getD_eq_getElem vals 0 hi]
    exact (List.pairwise_iff_getElem.mp hdesc) i k hi hk hlt

theorem mem_take_getD (vals : List ℚ) (k : ℕ) (x : ℚ) (hx : x ∈ vals.take k) :
    ∃ i, i < k ∧ i < vals.length ∧ vals.getD i 0 = x := by
  obtain ⟨i, hi, hget⟩ := List.getElem_of_mem hx
  have hik : i < k ∧ i < vals.length := by
    simp only [List.length_take, lt_min_iff] at hi
    exact hi
  refine ⟨i, hik.1, hik.2, ?_⟩
  rw [List.getD_eq_getElem vals 0 hik.2, ← hget]
  exact (List.getElem_take vals).symm

theorem job_le_load (T : ℚ) (m : ℕ) (vals : List ℚ) (σ : ℕ → ℕ)
    (hnn : ∀ i, i < vals.length → 0 ≤ vals.getD i 0)
    (hσ : ∀ i, i < vals.length → σ i < m)
    (hload : ∀ j, j < m → loadOf vals σ j ≤ T)
    (i : ℕ) (hi : i < vals.length) : vals.getD i 0 ≤ T := by
  have h1 : vals.getD i 0 ≤ loadOf vals σ (σ i) := by
    rw [loadOf]
    refine Finset.single_le_sum (f := fun i2 => vals.getD i2 0) (fun k hk => ?_)
      (Finset.mem_filter.mpr ⟨Finset.mem_range.mpr hi, rfl⟩)
    exact hnn k (Finset.mem_range.mp (Finset.mem_filter.mp hk).1)
  exact le_trans h1 (hload (σ i) (hσ i hi))

theorem fiber_card_le_two (T : ℚ) (m : ℕ) (vals : List ℚ) (σ : ℕ → ℕ)
    (hT0 : 0 ≤ T)
    (hbig : ∀ i, i < vals.length → T / 3 < vals.getD i 0)
    (hσ : ∀ i, i < vals.length → σ i < m)
    (hload : ∀ j, j < m → loadOf vals σ j ≤ T)
    (s : Finset ℕ) (hs : s ⊆ Finset.range vals.length) (j0 : ℕ)
    (hfib : ∀ i ∈ s, σ i = j0) :
    s.card ≤ 2 := by
  by_contra hcard
  push_neg at hcard
  obtain ⟨t, hts, htcard⟩ := Finset.exists_subset_card_eq
    (show 3 ≤ s.card by omega)
  have hj0m : j0 < m := by
    obtain ⟨i, hit⟩ := Finset.card_pos.mp (by rw [htcard]; norm_num)
    have his : i ∈ s := hts hit
    have h2 := hσ i (Finset.mem_range.mp (hs his))
    rwa [hfib i his] at h2
  have hsum : (t.sum fun i => vals.getD i 0) ≤ loadOf vals σ j0 := by
    rw [loadOf]
    apply Finset.sum_le_sum_of_subset_of_nonneg
    · intro i hit
      have his : i ∈ s := hts hit
      simp only [Finset.mem_filter, Finset.mem_range]
      exact ⟨Finset.mem_range.mp (hs his), hfib i his⟩
    · intro i hi2 _
      have h3 := hbig i (Finset.mem_range.mp (Finset.mem_filter.mp hi2).1)
      linarith
  have hTlt : T < t.sum fun i => vals.getD i 0 := by
    have h1 : (t.sum fun _ => T / 3) < t.sum fun i => vals.getD i 0 := by
      apply Finset.sum_lt_sum_of_nonempty
      · rw [← Finset.card_pos, htcard]
        norm_num
      · intro i hit
        exact hbig i (Finset.mem_range.mp (hs (hts hit)))
    rw [Finset.sum_const, htcard] at h1
    have h2 : (3 : ℕ) • (T / 3) = T := by
      rw [nsmul_eq_mul]
      push_cast
      ring
    rwa [h2] at h1
  have h4 := hload j0 hj0m
  linarith

theorem card_le_two_mul (T : ℚ) (m : ℕ) (vals : List ℚ) (σ : ℕ → ℕ)
    (hT0 : 0 ≤ T)
    (hbig : ∀ i, i < vals.length → T / 3 < vals.getD i 0)
    (hσ : ∀ i, i < vals.length → σ i < m)
    (hload : ∀ j, j < m → loadOf vals σ j ≤ T) :
    vals.length ≤ 2 * m := by
  have hcount : (Finset.range vals.length).card =
      Finset.sum (Finset.range m)
        (fun j => ((Finset.range vals.length).filter (fun i => σ i = j)).card) :=
    Finset.card_eq_sum_card_fiberwise
      (fun i hi => Finset.mem_range.mpr (hσ i (Finset.mem_range.mp hi)))
  rw [Finset.card_range] at hcount
  have hle : ∀ j ∈ Finset.range m,
      ((Finset.range vals.length).filter (fun i => σ i = j)).card ≤ 2 := by
    intro j _
    exact fiber_card_le_two T m vals σ hT0 hbig hσ hload _
      (Finset.filter_subset _ _) j (fun i hi => (Finset.mem_filter.mp hi).2)
  calc vals.length
      = Finset.sum (Finset.range m)
        (fun j => ((Finset.range vals.length).filter (fun i => σ i = j)).card) :=
        hcount
    _ ≤ Finset.sum (Finset.range m) (fun _ => 2) := Finset.sum_le_sum hle
    _ = 2 * m := by
        rw [Finset.sum_const, Finset.card_range, smul_eq_mul, Nat.mul_comm]

theorem count_lemma (T : ℚ) (m : ℕ) (vals : List ℚ) (σ : ℕ → ℕ)
    (hT0 : 0 ≤ T)
    (hdesc : List.Pairwise (fun x y : ℚ => y ≤ x) vals)
    (hbig : ∀ i, i < vals.length → T / 3 < vals.getD i 0)
    (hσ : ∀ i, i < vals.length → σ i < m)
    (hload : ∀ j, j < m → loadOf vals σ j ≤ T)
    (a b : ℕ) (hab : a ≤ b) (hbn : b < vals.length)
    (hsum : T < vals.getD a 0 + vals.getD b 0) :
    b + a + 2 ≤ 2 * m := by
  have K : ∀ x y, x ≤ a → y ≤ b → x ≠ y → σ x ≠ σ y := by
    intro x y hxa hyb hxy heq
    have hx : x < vals.length := lt_of_le_of_lt (le_trans hxa hab) hbn
    have hy : y < vals.length := lt_of_le_of_lt hyb hbn
    have hxv : vals.getD a 0 ≤ vals.getD x 0 :=
      desc_getD vals hdesc hxa (lt_of_le_of_lt hab hbn)
    have hyv : vals.getD b 0 ≤ vals.getD y 0 := desc_getD vals hdesc hyb hbn
    have hpair : vals.getD x 0 + vals.getD y 0 ≤ loadOf vals σ (σ x) := by
      have hps : ({x, y} : Finset ℕ).sum (fun i => vals.getD i 0) =
          vals.getD x 0 + vals.getD y 0 := Finset.sum_pair hxy
      rw [loadOf, ← hps]
      apply Finset.sum_le_sum_of_subset_of_nonneg
      · intro i hi
        simp only [Finset.mem_filter, Finset.mem_range]
        rcases Finset.mem_insert.mp hi with rfl | hi2
        · exact ⟨hx, rfl⟩
        · rw [Finset.mem_singleton.mp hi2]
          exact ⟨hy, heq.symm⟩
      · intro i hi2 _
        have h3 := hbig i (Finset.mem_range.mp (Finset.mem_filter.mp hi2).1)
        linarith
    have hl := hload (σ x) (hσ x hx)
    linarith
  have hsubH : (Finset.range (a + 1)).image σ ⊆ Finset.range m := by
    intro j hj
    obtain ⟨x, hx, rfl⟩ := Finset.mem_image.mp hj
    have hxa : x ≤ a := Nat.lt_succ_iff.mp (Finset.mem_range.mp hx)
    exact Finset.mem_range.mpr (hσ x (lt_of_le_of_lt (le_trans hxa hab) hbn))
  have hinj : Set.InjOn σ (Finset.range (a + 1)) := by
    intro x hx y hy hxy2
    by_contra hne
    have hxa : x ≤ a := by
      have := Finset.mem_coe.mp hx
      exact Nat.lt_succ_iff.mp (Finset.mem_range.mp this)
    have hya : y ≤ a := by
      have := Finset.mem_coe.mp hy
      exact Nat.lt_succ_iff.mp (Finset.mem_range.mp this)
    exact K x y hxa (le_trans hya hab) hne hxy2
  have hcardH : ((Finset.range (a + 1)).image σ).card = a + 1 := by
    rw [Finset.card_image_of_injOn hinj, Finset.card_range]
  have ham : a + 1 ≤ m := by
    calc a + 1 = ((Finset.range (a + 1)).image σ).card := hcardH.symm
      _ ≤ (Finset.range m).card := Finset.card_le_card hsubH
      _ = m := Finset.card_range m
  have hMcard : (Finset.Icc (a + 1) b).card = b - a := by
    rw [Nat.card_Icc]
    omega
  have hMsub : Finset.Icc (a + 1) b ⊆ Finset.range vals.length := by
    intro y hy
    exact Finset.mem_range.mpr (lt_of_le_of_lt (Finset.mem_Icc.mp hy).2 hbn)
  have hdisj : ∀ y ∈ Finset.Icc (a + 1) b, σ y ∉ (Finset.range (a + 1)).image σ := by
    intro y hy hmem
    obtain ⟨x, hx, hxe⟩ := Finset.mem_image.mp hmem
    have hxa : x ≤ a := Nat.lt_succ_iff.mp (Finset.mem_range.mp hx)
    have hya : a + 1 ≤ y := (Finset.mem_Icc.mp hy).1
    exact K x y hxa (Finset.mem_Icc.mp hy).2 (by omega) hxe
  have himgsub : (Finset.Icc (a + 1) b).image σ ⊆
      Finset.range m \ (Finset.range (a + 1)).image σ := by
    intro j hj
    obtain ⟨y, hy, rfl⟩ := Finset.mem_image.mp hj
    refine Finset.mem_sdiff.mpr ⟨?_, hdisj y hy⟩
    exact Finset.mem_range.mpr (hσ y (Finset.mem_range.mp (hMsub hy)))
  have himgcard : ((Finset.Icc (a + 1) b).image σ).card ≤ m - (a + 1) := by
    calc ((Finset.Icc (a + 1) b).image σ).card
        ≤ (Finset.range m \ (Finset.range (a + 1)).image σ).card :=
          Finset.card_le_card himgsub
      _ = m - (a + 1) := by
          rw [Finset.card_sdiff hsubH, Finset.card_range, hcardH]
  have hpigeon : (Finset.Icc (a + 1) b).card ≤
      2 * ((Finset.Icc (a + 1) b).image σ).card := by
    apply Finset.card_le_mul_card_image
    intro j0 _
    exact fiber_card_le_two T m vals σ hT0 hbig hσ hload _
      (le_trans (Finset.filter_subset _ _) hMsub) j0
      (fun i hi => (Finset.mem_filter.mp hi).2)
  have hfinal : b - a ≤ 2 * (m - (a + 1)) := by
    calc b - a = (Finset.Icc (a + 1) b).card := hMcard.symm
      _ ≤ 2 * ((Finset.Icc (a + 1) b).image σ).card := hpigeon
      _ ≤ 2 * (m - (a + 1)) := Nat.mul_le_mul_left 2 himgcard
  omega

/-- The canonical greedy bucket contents on descending all-big values: first
one value per bucket, then each further value paired with the smallest
unpaired first-phase value. -/
def canonState (vals : List ℚ) (m t : ℕ) : List ℚ :=
  if t ≤ m then vals.take t ++ List.replicate (m - t) 0
  else vals.take (m - (t - m)) ++ pairsList vals m (t - m)

theorem greedyStepL_perm_split (B : List ℚ) (v c : ℚ) (pre post : List ℚ)
    (hBC : B.Perm (pre ++ c :: post))
    (hmin : ∀ x ∈ pre ++ c :: post, c ≤ x) :
    (greedyStepL B v).Perm ((c + v) :: (pre ++ post)) := by
  have hne : B ≠ [] := by
    intro h
    have hlen := hBC.length_eq
    rw [h] at hlen
    simp only [List.length_nil, List.length_append, List.length_cons] at hlen
    omega
  have hk : firstArgmin B < B.length := firstArgmin_lt B hne
  have hceq : B.getD (firstArgmin B) 0 = c := by
    refine le_antisymm (firstArgmin_min B c (hBC.mem_iff.mpr (by simp))) ?_
    refine hmin _ (hBC.mem_iff.mp ?_)
    rw [List.getD_eq_getElem B 0 hk]
    exact List.getElem_mem hk
  have h0 : B = B.take (firstArgmin B) ++
      B.getD (firstArgmin B) 0 :: B.drop (firstArgmin B + 1) := by
    conv_lhs => rw [← List.take_append_drop (firstArgmin B) B]
    rw [List.drop_eq_getElem_cons hk, ← List.getD_eq_getElem B 0 hk]
  have hErase : B.eraseIdx (firstArgmin B) =
      B.take (firstArgmin B) ++ B.drop (firstArgmin B + 1) :=
    List.eraseIdx_eq_take_drop_succ ..
  have hBdec : B.Perm (c :: B.eraseIdx (firstArgmin B)) := by
    rw [hErase, ← hceq]
    conv_lhs => rw [h0]
    exact List.perm_middle
  have hSet : (greedyStepL B v).Perm ((c + v) :: B.eraseIdx (firstArgmin B)) := by
    show (B.set (firstArgmin B) (B.getD (firstArgmin B) 0 + v)).Perm _
    rw [List.set_eq_take_cons_drop _ hk, hErase, hceq]
    exact List.perm_middle
  have hE : (B.eraseIdx (firstArgmin B)).Perm (pre ++ post) := by
    have hmid : (c :: B.eraseIdx (firstArgmin B)).Perm (c :: (pre ++ post)) :=
      hBdec.symm.trans (hBC.trans List.perm_middle)
    exact hmid.cons_inv
  exact hSet.trans (hE.cons _)

theorem greedy_canon (T : ℚ) (m : ℕ) (hm : 0 < m) (vals : List ℚ) (σ : ℕ → ℕ)
    (hT0 : 0 ≤ T)
    (hdesc : List.Pairwise (fun x y : ℚ => y ≤ x) vals)
    (hbig : ∀ i, i < vals.length → T / 3 < vals.getD i 0)
    (hσ : ∀ i, i < vals.length → σ i < m)
    (hload : ∀ j, j < m → loadOf vals σ j ≤ T) :
    ∀ t, t ≤ vals.length →
      (greedyRun (vals.take t) (List.replicate m 0)).Perm (canonState vals m t) := by
  have hpos : ∀ i, i < vals.length → 0 < vals.getD i 0 := by
    intro i hi
    have h1 := hbig i hi
    linarith
  have hn2m : vals.length ≤ 2 * m := card_le_two_mul T m vals σ hT0 hbig hσ hload
  intro t
  induction t with
  | zero =>
    intro _
    show (List.replicate m (0:ℚ)).Perm (canonState vals m 0)
    simp only [canonState, if_pos (Nat.zero_le m), List.take_zero,
      Nat.sub_zero, List.nil_append]
    exact List.Perm.refl _
  | succ t2 ih =>
    intro ht
    have ht2n : t2 < vals.length := by omega
    have hih := ih (by omega)
    have htake : vals.take (t2 + 1) = vals.take t2 ++ [vals.getD t2 0] := by
      rw [List.take_succ]
      congr 1
      rw [List.getElem?_eq_getElem ht2n, List.getD_eq_getElem vals 0 ht2n]
      rfl
    have hrun : greedyRun (vals.take (t2 + 1)) (List.replicate m 0) =
        greedyStepL (greedyRun (vals.take t2) (List.replicate m 0))
          (vals.getD t2 0) := by
      show (vals.take (t2 + 1)).foldl greedyStepL _ = _
      rw [htake, List.foldl_append]
      rfl
    by_cases hcase : t2 < m
    · -- phase 1: a fresh zero bucket receives the value
      have hcanon2 : canonState vals m t2 =
          vals.take t2 ++ (0 :: List.replicate (m - t2 - 1) 0) := by
        simp only [canonState, if_pos (show t2 ≤ m by omega)]
        rw [show m - t2 = (m - t2 - 1) + 1 by omega, List.replicate_succ,
          Nat.add_sub_cancel]
      have hBC : (greedyRun (vals.take t2) (List.replicate m 0)).Perm
          (vals.take t2 ++ 0 :: List.replicate (m - t2 - 1) 0) := by
        rw [← hcanon2]
        exact hih
      have hmin : ∀ x ∈ vals.take t2 ++ 0 :: List.replicate (m - t2 - 1) 0,
          (0:ℚ) ≤ x := by
        intro x hx
        rcases List.mem_append.mp hx with h | h
        · obtain ⟨i, _, hi, rfl⟩ := mem_take_getD vals t2 x h
          exact le_of_lt (hpos i hi)
        · rcases List.mem_cons.mp h with rfl | h2
          · exact le_refl 0
          · rw [List.eq_of_mem_replicate h2]
      have hstep := greedyStepL_perm_split _ (vals.getD t2 0) 0
        (vals.take t2) (List.replicate (m - t2 - 1) 0) hBC hmin
      rw [hrun]
      refine hstep.trans ?_
      rw [zero_add]
      have hgoal : canonState vals m (t2 + 1) =
          (vals.take t2 ++ [vals.getD t2 0]) ++ List.replicate (m - t2 - 1) 0 := by
        simp only [canonState, if_pos (show t2 + 1 ≤ m by omega)]
        rw [htake, show m - (t2 + 1) = m - t2 - 1 by omega]
      rw [hgoal, List.append_assoc]
      exact List.perm_middle.symm
    · -- phase 2: the value pairs with the smallest single bucket
      have hmt2 : m ≤ t2 := by omega
      have hjm : t2 - m + 1 ≤ m := by omega
      have hcanon2 : canonState vals m t2 =
          vals.take (m - (t2 - m)) ++ pairsList vals m (t2 - m) := by
        by_cases h : t2 ≤ m
        · have ht2m : t2 = m := by omega
          simp only [canonState, if_pos h, ht2m, Nat.sub_self, Nat.sub_zero,
            pairsList, List.range_zero, List.map_nil, List.replicate_zero,
            List.append_nil]
          rw [if_pos (le_refl m)]
        · simp only [canonState, if_neg h]
      have htk : vals.take (m - (t2 - m)) =
          vals.take (m - (t2 - m) - 1) ++ [vals.getD (m - (t2 - m) - 1) 0] := by
        have hlt : m - (t2 - m) - 1 < vals.length := by omega
        conv_lhs => rw [show m - (t2 - m) = (m - (t2 - m) - 1) + 1 by omega]
        rw [List.take_succ]
        congr 1
        rw [List.getElem?_eq_getElem hlt, List.getD_eq_getElem vals 0 hlt]
        rfl
      have hBC : (greedyRun (vals.take t2) (List.replicate m 0)).Perm
          (vals.take (m - (t2 - m) - 1) ++
            vals.getD (m - (t2 - m) - 1) 0 :: pairsList vals m (t2 - m)) := by
        refine hih.trans ?_
        rw [hcanon2, htk, List.append_assoc]
        exact List.Perm.refl _
      have hc23 : vals.getD (m - (t2 - m) - 1) 0 ≤ 2 * T / 3 := by
        by_contra hgt
        push_neg at hgt
        have hcl := count_lemma T m vals σ hT0 hdesc hbig hσ hload
          (m - (t2 - m) - 1) (m + (t2 - m)) (by omega)
          (by omega)
          (by
            have h1 := hbig (m + (t2 - m)) (by omega)
            linarith)
        omega
      have hmin : ∀ x ∈ vals.take (m - (t2 - m) - 1) ++
          vals.getD (m - (t2 - m) - 1) 0 :: pairsList vals m (t2 - m),
          vals.getD (m - (t2 - m) - 1) 0 ≤ x := by
        intro x hx
        rcases List.mem_append.mp hx with h | h
        · obtain ⟨i, hik, hi, rfl⟩ := mem_take_getD vals (m - (t2 - m) - 1) x h
          exact desc_getD vals hdesc (by omega) (by omega)
        · rcases List.mem_cons.mp h with rfl | h2
          · exact le_refl _
          · obtain ⟨i, hir, rfl⟩ := List.mem_map.mp h2
            have hirj : i < t2 - m := List.mem_range.mp hir
            have hb1 := hbig (m - 1 - i) (by omega)
            have hb2 := hbig (m + i) (by omega)
            linarith
      have hstep := greedyStepL_perm_split _ (vals.getD t2 0)
        (vals.getD (m - (t2 - m) - 1) 0)
        (vals.take (m - (t2 - m) - 1)) (pairsList vals m (t2 - m)) hBC hmin
      rw [hrun]
      refine hstep.trans ?_
      have hgoal : canonState vals m (t2 + 1) =
          vals.take (m - (t2 - m) - 1) ++ (pairsList vals m (t2 - m) ++
            [vals.getD (m - (t2 - m) - 1) 0 + vals.getD t2 0]) := by
        simp only [canonState, if_neg (show ¬ t2 + 1 ≤ m by omega)]
        rw [show t2 + 1 - m = (t2 - m) + 1 by omega]
        rw [show m - ((t2 - m) + 1) = m - (t2 - m) - 1 by omega]
        congr 1
        rw [pairsList, List.range_succ, List.map_append, List.map_cons,
          List.map_nil, ← pairsList]
        congr 2
        rw [show m - 1 - (t2 - m) = m - (t2 - m) - 1 by omega,
          show m + (t2 - m) = t2 by omega]
      rw [hgoal, ← List.append_assoc]
      exact (List.perm_append_singleton _ _).symm

theorem greedy_all_big (T : ℚ) (m : ℕ) (hm : 0 < m) (vals : List ℚ) (σ : ℕ → ℕ)
    (hT0 : 0 ≤ T)
    (hdesc : List.Pairwise (fun x y : ℚ => y ≤ x) vals)
    (hbig : ∀ i, i < vals.length → T / 3 < vals.getD i 0)
    (hσ : ∀ i, i < vals.length → σ i < m)
    (hload : ∀ j, j < m → loadOf vals σ j ≤ T) :
    ∀ L ∈ greedyRun vals (List.replicate m 0), L ≤ T := by
  have hnn : ∀ i, i < vals.length → 0 ≤ vals.getD i 0 := by
    intro i hi
    have h1 := hbig i hi
    linarith
  have hn2m : vals.length ≤ 2 * m := card_le_two_mul T m vals σ hT0 hbig hσ hload
  have hcanon := greedy_canon T m hm vals σ hT0 hdesc hbig hσ hload
    vals.length (le_refl _)
  rw [List.take_length] at hcanon
  intro L hL
  have hLmem : L ∈ canonState vals m vals.length := hcanon.mem_iff.mp hL
  have htake_part : ∀ (k : ℕ) (x : ℚ), x ∈ vals.take k → x ≤ T := by
    intro k x hx
    obtain ⟨i, _, hi, rfl⟩ := mem_take_getD vals k x hx
    exact job_le_load T m vals σ hnn hσ hload i hi
  by_cases hnm : vals.length ≤ m
  · rw [show canonState vals m vals.length =
        vals.take vals.length ++ List.replicate (m - vals.length) 0 from by
      simp only [canonState, if_pos hnm]] at hLmem
    rcases List.mem_append.mp hLmem with h | h
    · exact htake_part _ _ h
    · rw [List.eq_of_mem_replicate h]
      exact hT0
  · rw [show canonState vals m vals.length =
        vals.take (m - (vals.length - m)) ++ pairsList vals m (vals.length - m)
        from by simp only [canonState, if_neg hnm]] at hLmem
    rcases List.mem_append.mp hLmem with h | h
    · exact htake_part _ _ h
    · simp only [pairsList] at h
      obtain ⟨i, hir, rfl⟩ := List.mem_map.mp h
      have hirj : i < vals.length - m := List.mem_range.mp hir
      by_contra hgt
      push_neg at hgt
      have hcl := count_lemma T m vals σ hT0 hdesc hbig hσ hload
        (m - 1 - i) (m + i) (by omega) (by omega) hgt
      omega

theorem sum_eq_range_getD : ∀ (L : List ℚ),
    L.sum = Finset.sum (Finset.range L.length) (fun i => L.getD i 0) := by
  intro L
  induction L using List.reverseRecOn with
  | nil => simp
  | append_singleton ws v ihl =>
    rw [List.sum_append]
    rw [show (ws ++ [v]).length = ws.length + 1 by simp, Finset.sum_range_succ]
    rw [Finset.sum_congr rfl (fun i hi =>
      List.getD_append ws [v] 0 i (Finset.mem_range.mp hi))]
    rw [← ihl, List.getD_append_right ws [v] 0 ws.length (le_refl _)]
    simp

theorem sum_eq_sum_loads (L : List ℚ) (m : ℕ) (σ : ℕ → ℕ)
    (hσ : ∀ i, i < L.length → σ i < m) :
    L.sum = Finset.sum (Finset.range m) (fun j => loadOf L σ j) := by
  rw [sum_eq_range_getD]
  simp only [loadOf]
  exact (Finset.sum_fiberwise_of_maps_to
    (fun i hi => Finset.mem_range.mpr (hσ i (Finset.mem_range.mp hi))) _).symm

theorem total_le_m_mul (T : ℚ) (L : List ℚ) (m : ℕ) (σ : ℕ → ℕ)
    (hσ : ∀ i, i < L.length → σ i < m)
    (hload : ∀ j, j < m → loadOf L σ j ≤ T) :
    L.sum ≤ (m : ℚ) * T := by
  rw [sum_eq_sum_loads L m σ hσ]
  calc Finset.sum (Finset.range m) (fun j => loadOf L σ j)
      ≤ Finset.sum (Finset.range m) (fun _ => T) :=
        Finset.sum_le_sum (fun j hj => hload j (Finset.mem_range.mp hj))
    _ = (m : ℚ) * T := by
        rw [Finset.sum_const, Finset.card_range, nsmul_eq_mul]

theorem loadOf_concat (L : List ℚ) (v : ℚ) (σ : ℕ → ℕ) (j : ℕ) :
    loadOf (L ++ [v]) σ j =
      loadOf L σ j + (if σ L.length = j then v else 0) := by
  rw [loadOf, loadOf, Finset.sum_filter, Finset.sum_filter]
  rw [show (L ++ [v]).length = L.length + 1 by simp]
  rw [Finset.sum_range_succ]
  congr 1
  · apply Finset.sum_congr rfl
    intro i hi
    rw [List.getD_append L [v] 0 i (Finset.mem_range.mp hi)]
  · rw [List.getD_append_right L [v] 0 L.length (le_refl _)]
    simp

theorem greedy_lpt (T : ℚ) (m : ℕ) (hm : 0 < m) :
    ∀ (vals : List ℚ) (σ : ℕ → ℕ),
    0 ≤ T →
    List.Pairwise (fun x y : ℚ => y ≤ x) vals →
    (∀ i, i < vals.length → 0 ≤ vals.getD i 0) →
    (∀ i, i < vals.length → σ i < m) →
    (∀ j, j < m → loadOf vals σ j ≤ T) →
    ∀ L ∈ greedyRun vals (List.replicate m 0), L ≤ 4 / 3 * T := by
  intro vals
  induction vals using List.reverseRecOn with
  | nil =>
    intro σ hT0 _ _ _ _ L hL
    rw [show greedyRun [] (List.replicate m 0) = List.replicate m 0 from rfl] at hL
    rw [List.eq_of_mem_replicate hL]
    linarith
  | append_singleton ws v ih =>
    intro σ hT0 hdesc hnn hσ hload L hL
    have hgetlast : (ws ++ [v]).getD ws.length 0 = v := by
      rw [List.getD_append_right ws [v] 0 ws.length (le_refl _)]
      simp
    have hvnn : 0 ≤ v := by
      have h1 := hnn ws.length (by simp)
      rwa [hgetlast] at h1
    by_cases hbigv : T / 3 < v
    · have hbig : ∀ i, i < (ws ++ [v]).length → T / 3 < (ws ++ [v]).getD i 0 := by
        intro i hi
        by_cases hiw : i < ws.length
        · have hge := desc_getD (ws ++ [v]) hdesc
            (show i ≤ ws.length from le_of_lt hiw) (by simp)
          rw [hgetlast] at hge
          linarith
        · have hieq : i = ws.length := by
            simp only [List.length_append, List.length_cons, List.length_nil] at hi
            omega
          rw [hieq, hgetlast]
          exact hbigv
      have hall := greedy_all_big T m hm (ws ++ [v]) σ hT0 hdesc hbig hσ hload L hL
      linarith
    · push_neg at hbigv
      have hdesc2 : List.Pairwise (fun x y : ℚ => y ≤ x) ws :=
        hdesc.sublist (List.sublist_append_left ws [v])
      have hnn2 : ∀ i, i < ws.length → 0 ≤ ws.getD i 0 := by
        intro i hi
        have h1 := hnn i (by simp; omega)
        rwa [List.getD_append ws [v] 0 i hi] at h1
      have hσ2 : ∀ i, i < ws.length → σ i < m := by
        intro i hi
        exact hσ i (by simp; omega)
      have hload2 : ∀ j, j < m → loadOf ws σ j ≤ T := by
        intro j hj
        have h1 := hload j hj
        rw [loadOf_concat] at h1
        have h2 : 0 ≤ (if σ ws.length = j then v else 0) := by
          split_ifs
          · exact hvnn
          · exact le_refl 0
        linarith
      have hrun : greedyRun (ws ++ [v]) (List.replicate m 0) =
          greedyStepL (greedyRun ws (List.replicate m 0)) v := by
        show (ws ++ [v]).foldl greedyStepL _ = _
        rw [List.foldl_append]
        rfl
      rw [hrun] at hL
      have hBlen : (greedyRun ws (List.replicate m 0)).length = m := by
        rw [greedyRun_length, List.length_replicate]
      have hBne : greedyRun ws (List.replicate m 0) ≠ [] := by
        intro h
        rw [h] at hBlen
        simp only [List.length_nil] at hBlen
        omega
      rcases List.mem_or_eq_of_mem_set hL with hold | hnew
      · exact ih σ hT0 hdesc2 hnn2 hσ2 hload2 L hold
      · have hrepne : (List.replicate m (0:ℚ)) ≠ [] := by
          intro h
          have h2 := congrArg List.length h
          simp at h2
          omega
        have hsum : (greedyRun ws (List.replicate m 0)).sum = ws.sum := by
          rw [greedyRun_sum ws _ hrepne]
          simp
        have hmins := List.card_nsmul_le_sum
          (greedyRun ws (List.replicate m 0))
          ((greedyRun ws (List.replicate m 0)).getD
            (firstArgmin (greedyRun ws (List.replicate m 0))) 0)
          (fun x hx => firstArgmin_min (greedyRun ws (List.replicate m 0)) x hx)
        rw [hBlen, hsum, nsmul_eq_mul] at hmins
        have htot : ws.sum + v ≤ (m : ℚ) * T := by
          have h1 := total_le_m_mul T (ws ++ [v]) m σ hσ hload
          rwa [List.sum_append, List.sum_cons, List.sum_nil, add_zero] at h1
        have hXle : (greedyRun ws (List.replicate m 0)).getD
            (firstArgmin (greedyRun ws (List.replicate m 0))) 0 ≤ T := by
          refine le_of_mul_le_mul_left ?_ (show (0:ℚ) < m by exact_mod_cast hm)
          have h2 : (m : ℚ) * (greedyRun ws (List.replicate m 0)).getD
              (firstArgmin (greedyRun ws (List.replicate m 0))) 0 ≤ ws.sum := hmins
          linarith
        rw [hnew]
        show (greedyRun ws (List.replicate m 0)).getD
            (firstArgmin (greedyRun ws (List.replicate m 0))) 0 + v ≤ 4 / 3 * T
        linarith

theorem insertDesc_pairwise {α : Type} (key : α → ℚ) (x : α) :
    ∀ (l : List α), List.Pairwise (fun a b => key b ≤ key a) l →
    List.Pairwise (fun a b => key b ≤ key a) (insertDesc key x l) := by
  intro l
  induction l with
  | nil =>
    intro _
    exact List.pairwise_singleton _ _
  | cons y ys ih =>
    intro hl
    rw [insertDesc]
    by_cases hc : key y ≤ key x
    · rw [if_pos hc]
      refine List.Pairwise.cons ?_ hl
      intro z hz
      rcases List.mem_cons.mp hz with rfl | hz2
      · exact hc
      · exact le_trans ((List.pairwise_cons.mp hl).1 z hz2) hc
    · rw [if_neg hc]
      refine List.Pairwise.cons ?_ (ih (List.pairwise_cons.mp hl).2)
      intro z hz
      have hz2 := (insertDesc_perm key x ys).mem_iff.mp hz
      rcases List.mem_cons.mp hz2 with rfl | hz3
      · exact le_of_not_le hc
      · exact (List.pairwise_cons.mp hl).1 z hz3

theorem sortDesc_pairwise {α : Type} (key : α → ℚ) :
    ∀ (l : List α), List.Pairwise (fun a b => key b ≤ key a) (sortDesc key l) := by
  intro l
  induction l with
  | nil => exact List.Pairwise.nil
  | cons x xs ih => exact insertDesc_pairwise key x _ ih

theorem loadOf_reindex (lengths : List ℚ) (order : List ℕ) (σ : ℕ → ℕ) (j : ℕ)
    (hperm : order.Perm (List.range lengths.length)) :
    loadOf (order.map (fun i => lengths.getD i 0))
      (fun p => σ (order.getD p 0)) j = loadOf lengths σ j := by
  have hlen : order.length = lengths.length := by
    rw [hperm.length_eq, List.length_range]
  have hnd : order.Nodup := hperm.nodup_iff.mpr (List.nodup_range _)
  rw [loadOf, loadOf, List.length_map]
  refine Finset.sum_nbij (fun p => order.getD p 0) ?_ ?_ ?_ ?_
  · intro p hp
    obtain ⟨hpr, hpj⟩ := Finset.mem_filter.mp hp
    have hpl : p < order.length := Finset.mem_range.mp hpr
    refine Finset.mem_filter.mpr ⟨?_, hpj⟩
    show order.getD p 0 ∈ Finset.range lengths.length
    rw [List.getD_eq_getElem order 0 hpl]
    exact Finset.mem_range.mpr
      (List.mem_range.mp (hperm.mem_iff.mp (List.getElem_mem hpl)))
  · intro p1 hp1 p2 hp2 heq
    have heq2 : order.getD p1 0 = order.getD p2 0 := heq
    have h1 : p1 < order.length :=
      Finset.mem_range.mp (Finset.mem_filter.mp (Finset.mem_coe.mp hp1)).1
    have h2 : p2 < order.length :=
      Finset.mem_range.mp (Finset.mem_filter.mp (Finset.mem_coe.mp hp2)).1
    rw [List.getD_eq_getElem order 0 h1, List.getD_eq_getElem order 0 h2] at heq2
    exact (hnd.getElem_inj_iff).mp heq2
  · intro i hi
    obtain ⟨hir, hij⟩ := Finset.mem_filter.mp (Finset.mem_coe.mp hi)
    have himem : i ∈ order := hperm.mem_iff.mpr hir
    obtain ⟨p, hp, hpe⟩ := List.getElem_of_mem himem
    refine Set.mem_image_iff_bex.mpr ⟨p, ?_, ?_⟩
    · refine Finset.mem_coe.mpr (Finset.mem_filter.mpr
        ⟨Finset.mem_range.mpr hp, ?_⟩)
      show σ (order.getD p 0) = j
      rw [List.getD_eq_getElem order 0 hp, hpe]
      exact hij
    · show order.getD p 0 = i
      rw [List.getD_eq_getElem order 0 hp, hpe]
  · intro p hp
    have hpl : p < order.length :=
      Finset.mem_range.mp (Finset.mem_filter.mp hp).1
    show (order.map fun i2 => lengths.getD i2 0).getD p 0 =
      lengths.getD (order.getD p 0) 0
    rw [List.getD_eq_getElem (order.map fun i2 => lengths.getD i2 0) 0
      (by rw [List.length_map]; exact hpl)]
    rw [List.getElem_map, List.getD_eq_getElem order 0 hpl]

/-! ### Path graphs and BFS on them -/

/-- The graph whose nodes are `ns` in order and whose edges join each node
to its successor: a single simple path when `ns` has no duplicates. -/
def pathGraph (ns : List Node) : Graph :=
  ⟨ns, ns.zip ns.tail⟩

theorem mem_zip_tail {ms : List Node} {e : Node × Node} (he : e ∈ ms.zip ms.tail) :
    e.1 ∈ ms ∧ e.2 ∈ ms := by
  have h := List.of_mem_zip he
  exact ⟨h.1, List.mem_of_mem_tail h.2⟩

theorem neighborsG_zip_not_mem (ms : List Node) (u : Node) (hu : u ∉ ms) :
    (ms.zip ms.tail).filterMap (fun e =>
      if e.1 = u then some e.2 else if e.2 = u then some e.1 else none) = [] := by
  refine List.filterMap_eq_nil_iff.mpr ?_
  intro e he
  have hm := mem_zip_tail he
  rw [if_neg (fun h : e.1 = u => hu (h ▸ hm.1)),
    if_neg (fun h : e.2 = u => hu (h ▸ hm.2))]

theorem filterMap_head_zip (u : Node) (post : List Node) (hu : u ∉ post) :
    ((u :: post).zip post).filterMap (fun e =>
      if e.1 = u then some e.2 else if e.2 = u then some e.1 else none) =
    post.head?.toList := by
  cases post with
  | nil => rfl
  | cons v post2 =>
    show List.filterMap _ ((u, v) :: (v :: post2).zip post2) = _
    rw [List.filterMap_cons, if_pos rfl]
    rw [show ((v :: post2).zip post2).filterMap _ = [] from
      neighborsG_zip_not_mem (v :: post2) u hu]
    rfl

theorem neighborsG_pathGraph (ns : List Node) (hnd : ns.Nodup)
    (pre post : List Node) (u : Node) (hsplit : ns = pre ++ u :: post) :
    neighborsG (pathGraph ns) u = pre.getLast?.toList ++ post.head?.toList := by
  subst hsplit
  induction pre with
  | nil =>
    simp only [List.nil_append] at hnd ⊢
    rw [neighborsG]
    show ((u :: post).zip post).filterMap _ = _
    rw [filterMap_head_zip u post (List.nodup_cons.mp hnd).1]
    rfl
  | cons b pre2 ih =>
    have hnd2 : (pre2 ++ u :: post).Nodup := (List.nodup_cons.mp (by simpa using hnd)).2
    have hbne : b ∉ pre2 ++ u :: post := (List.nodup_cons.mp (by simpa using hnd)).1
    have hub : u ≠ b := by
      intro h
      exact hbne (by simp [← h])
    rw [neighborsG]
    cases pre2 with
    | nil =>
      show List.filterMap _ ((b, u) :: (u :: post).zip post) = _
      rw [List.filterMap_cons, if_neg (fun h : b = u => hub h.symm), if_pos rfl]
      rw [show ((u :: post).zip post).filterMap _ = post.head?.toList from
        filterMap_head_zip u post (by
          intro hmem
          exact (List.nodup_cons.mp (by simpa using hnd2)).1 hmem)]
      rfl
    | cons c pre3 =>
      show List.filterMap _
        ((b, c) :: ((c :: pre3) ++ u :: post).zip ((c :: pre3) ++ u :: post).tail) = _
      rw [List.filterMap_cons]
      have hcne : c ≠ u := by
        intro h
        subst h
        exact (List.nodup_cons.mp hnd2).1 (by simp)
      rw [if_neg (fun h : b = u => hub h.symm), if_neg (fun h : c = u => hcne h)]
      have hres := ih hnd2
      rw [neighborsG] at hres
      rw [show (((c :: pre3) ++ u :: post).zip ((c :: pre3) ++ u :: post).tail).filterMap _ =
        (c :: pre3).getLast?.toList ++ post.head?.toList from hres]
      rw [show (b :: c :: pre3).getLast? = (c :: pre3).getLast? from by
        rw [List.getLast?_cons_cons]]

/-- The BFS table entries discovered while marching down a chain: each node
paired with the source path extended to it. -/
def chainEntries (pu : List Node) : List Node → List (Node × List Node)
  | [] => []
  | v :: post => (v, pu ++ [v]) :: chainEntries (pu ++ [v]) post

theorem expandInner_eq (G : Graph) (u : Node) (pu : List Node) (seen : List Node) :
    ∀ (nbrs : List Node) (acc : List (Node × List Node)), nbrs.Nodup →
    (∀ w ∈ nbrs, (acc.any (fun e => e.1 = w)) = false) →
    (nbrs.foldl (fun acc2 w =>
      if w ∈ seen ∨ acc2.any (fun e => e.1 = w) then acc2
      else acc2 ++ [(w, pu ++ [w])]) acc) =
      acc ++ (nbrs.filter (fun x => decide (x ∉ seen))).map (fun w => (w, pu ++ [w])) := by
  intro nbrs
  induction nbrs with
  | nil => intro acc _ _; simp
  | cons w rest ih =>
    intro acc hnd hdisj
    rw [List.foldl_cons, List.filter_cons]
    by_cases hseen : w ∈ seen
    · rw [if_pos (Or.inl hseen), if_neg (by simp [hseen])]
      exact ih acc (List.nodup_cons.mp hnd).2 (fun x hx => hdisj x (by simp [hx]))
    · rw [if_neg (by
        rintro (h | h)
        · exact hseen h
        · rw [hdisj w (by simp)] at h
          exact Bool.false_ne_true h)]
      rw [if_pos (by simpa using hseen)]
      rw [ih (acc ++ [(w, pu ++ [w])]) (List.nodup_cons.mp hnd).2 (by
        intro x hx
        rw [List.any_append]
        have h1 := hdisj x (by simp [hx])
        have h2 : x ≠ w := by
          intro h
          exact (List.nodup_cons.mp hnd).1 (h ▸ hx)
        simp [h1, h2.symm])]
      rw [List.map_cons]
      simp

theorem expandFrontier_single (G : Graph) (u : Node) (pu : List Node)
    (seen : List Node) (hnd : (neighborsG G u).Nodup) :
    expandFrontier G [(u, pu)] seen =
      ((neighborsG G u).filter (fun x => decide (x ∉ seen))).map
        (fun w => (w, pu ++ [w])) := by
  rw [expandFrontier, List.foldl_cons, List.foldl_nil]
  exact expandInner_eq G u pu seen (neighborsG G u) [] hnd (by simp)

theorem bfsAux_chain_march (G : Graph) (L : List Node)
    (H1 : ∀ pre u post, L = pre ++ u :: post →
      (neighborsG G u).Nodup ∧
      (neighborsG G u).filter (fun x => decide (x ∉ pre ++ [u])) = post.take 1) :
    ∀ (post pre : List Node) (u : Node) (pu : List Node) (fuel : ℕ)
      (acc : List (Node × List Node)),
    L = pre ++ u :: post → post.length ≤ fuel →
    bfsAux G fuel [(u, pu)] (pre ++ [u]) acc = acc ++ chainEntries pu post := by
  intro post
  induction post with
  | nil =>
    intro pre u pu fuel acc hsplit _
    have hH := H1 pre u [] hsplit
    cases fuel with
    | zero => simp [bfsAux, chainEntries]
    | succ fu =>
      rw [bfsAux]
      rw [expandFrontier_single G u pu (pre ++ [u]) hH.1, hH.2]
      simp [chainEntries]
  | cons v post2 ih =>
    intro pre u pu fuel acc hsplit hfuel
    obtain ⟨fu, rfl⟩ : ∃ fu, fuel = fu + 1 :=
      ⟨fuel - 1, by simp only [List.length_cons] at hfuel; omega⟩
    have hH := H1 pre u (v :: post2) hsplit
    rw [bfsAux]
    rw [expandFrontier_single G u pu (pre ++ [u]) hH.1, hH.2]
    show (if ([(v, pu ++ [v])] : List (Node × List Node)).isEmpty then acc
      else bfsAux G fu [(v, pu ++ [v])]
        ((pre ++ [u]) ++ ([(v, pu ++ [v])] : List (Node × List Node)).map Prod.fst)
        (acc ++ [(v, pu ++ [v])])) = acc ++ chainEntries pu (v :: post2)
    rw [if_neg (by simp)]
    have hrec := ih (pre ++ [u]) v (pu ++ [v]) fu (acc ++ [(v, pu ++ [v])])
      (by rw [hsplit]; simp)
      (by simp only [List.length_cons] at hfuel; omega)
    show bfsAux G fu [(v, pu ++ [v])] ((pre ++ [u]) ++ [v]) (acc ++ [(v, pu ++ [v])])
      = acc ++ chainEntries pu (v :: post2)
    rw [hrec, chainEntries]
    simp

theorem mem_of_getLast?_eq : ∀ (l : List Node) (z : Node), l.getLast? = some z → z ∈ l := by
  intro l
  induction l with
  | nil => intro z h; simp at h
  | cons v l2 ih =>
    intro z h
    cases l2 with
    | nil =>
      have : v = z := by simpa using h
      simp [this]
    | cons w l3 =>
      rw [List.getLast?_cons_cons] at h
      exact List.mem_cons_of_mem v (ih z h)

theorem H1_pathGraph (ns : List Node) (hnd : ns.Nodup) :
    ∀ pre u post, ns = pre ++ u :: post →
      (neighborsG (pathGraph ns) u).Nodup ∧
      (neighborsG (pathGraph ns) u).filter (fun x => decide (x ∉ pre ++ [u])) =
        post.take 1 := by
  intro pre u post hsplit
  rw [neighborsG_pathGraph ns hnd pre post u hsplit]
  rw [hsplit] at hnd
  obtain ⟨hndp, hndu, hdisj⟩ := List.nodup_append.mp hnd
  rcases List.eq_nil_or_concat pre with rfl | ⟨pre2, y, hpre⟩
  · cases post with
    | nil => exact ⟨by simp, by simp⟩
    | cons v post2 =>
      refine ⟨by simp, ?_⟩
      have huv : ¬ v = u := by
        intro h
        exact (List.nodup_cons.mp hndu).1 (by simp [h])
      simp [List.filter, huv]
  · rw [List.concat_eq_append] at hpre
    subst hpre
    rw [List.getLast?_concat]
    have hy : y ∈ pre2 ++ [y] := by simp
    have hyu : y ∉ u :: post := fun h => hdisj hy h
    cases post with
    | nil =>
      refine ⟨by simp, ?_⟩
      have hyin : y ∈ (pre2 ++ [y]) ++ [u] := by simp
      simp [List.filter, hyin]
    | cons v post2 =>
      have hvy : ¬ v = y := by
        intro h
        exact hyu (by simp [h])
      have hvu : ¬ v = u := by
        intro h
        exact (List.nodup_cons.mp hndu).1 (by simp [h])
      have hvpre : v ∉ pre2 ++ [y] := fun h => hdisj h (by simp)
      have hvp2 : v ∉ pre2 := fun h => hvpre (by simp [h])
      constructor
      · show (y :: [v]).Nodup
        refine List.nodup_cons.mpr ⟨?_, List.nodup_singleton v⟩
        simp only [List.mem_singleton]
        exact fun h => hvy h.symm
      · have hyin : y ∈ (pre2 ++ [y]) ++ [u] := by simp
        simp [List.filter, hyin, hvp2, hvy, hvu]

theorem bfsTable_pathGraph (a : Node) (rest : List Node)
    (hnd : (a :: rest).Nodup) :
    bfsTable (pathGraph (a :: rest)) a = (a, [a]) :: chainEntries [a] rest := by
  have h := bfsAux_chain_march (pathGraph (a :: rest)) (a :: rest)
    (H1_pathGraph (a :: rest) hnd) rest [] a [a] (a :: rest).length
    [(a, [a])] rfl (by simp)
  rw [bfsTable]
  simpa using h

theorem endpointsOf_pathGraph (a z : Node) (mid : List Node)
    (hnd : (a :: (mid ++ [z])).Nodup) :
    endpointsOf (pathGraph (a :: (mid ++ [z]))) = [a, z] := by
  have hdega : degreeG (pathGraph (a :: (mid ++ [z]))) a = 1 := by
    show (neighborsG _ _).length = 1
    rw [neighborsG_pathGraph _ hnd [] (mid ++ [z]) a rfl]
    cases mid <;> rfl
  have hdegz : degreeG (pathGraph (a :: (mid ++ [z]))) z = 1 := by
    obtain ⟨l, y, hly⟩ : ∃ l y, a :: mid = l ++ [y] := by
      rcases List.eq_nil_or_concat (a :: mid) with h | ⟨l, y, h⟩
      · exact absurd h (by simp)
      · exact ⟨l, y, by simpa [List.concat_eq_append] using h⟩
    show (neighborsG _ _).length = 1
    rw [neighborsG_pathGraph _ hnd (a :: mid) [] z (by simp)]
    rw [hly, List.getLast?_concat]
    rfl
  have hdeg2 : ∀ u ∈ mid, degreeG (pathGraph (a :: (mid ++ [z]))) u = 2 := by
    intro u hu
    obtain ⟨t1, t2, hst⟩ := List.append_of_mem hu
    obtain ⟨l, y, hly⟩ : ∃ l y, a :: t1 = l ++ [y] := by
      rcases List.eq_nil_or_concat (a :: t1) with h | ⟨l, y, h⟩
      · exact absurd h (by simp)
      · exact ⟨l, y, by simpa [List.concat_eq_append] using h⟩
    show (neighborsG _ _).length = 2
    rw [neighborsG_pathGraph _ hnd (a :: t1) (t2 ++ [z]) u (by rw [hst]; simp)]
    rw [hly, List.getLast?_concat]
    cases t2 <;> rfl
  unfold endpointsOf
  show List.filter _ (a :: (mid ++ [z])) = [a, z]
  rw [List.filter_cons, if_pos (by simp [hdega]), List.filter_append]
  rw [List.filter_eq_nil_iff.mpr (fun u hu => by simp [hdeg2 u hu])]
  simp [List.filter_cons, hdegz]

theorem chainEntries_chain_sub : ∀ (post : List Node) (x : Node) (pu : List Node),
    pu ≠ [] →
    List.Chain' (fun e1 e2 : Node × List Node => e1.2.length - 1 < e2.2.length - 1)
      ((x, pu) :: chainEntries pu post) := by
  intro post
  induction post with
  | nil => intro x pu _; simp [chainEntries]
  | cons v post2 ih =>
    intro x pu hpu
    rw [chainEntries, List.chain'_cons]
    refine ⟨?_, ih v (pu ++ [v]) (by simp)⟩
    have hlen : pu.length ≠ 0 := fun h => hpu (List.length_eq_zero.mp h)
    simp only [List.length_append, List.length_cons, List.length_nil]
    omega

theorem argmaxD_of_chain : ∀ (rest : List (Node × ℕ)) (e la : Node × ℕ),
    List.Chain' (fun x y : Node × ℕ => x.2 < y.2) (e :: rest) →
    (e :: rest).getLast? = some la →
    argmaxD (e :: rest) = la.1 := by
  intro rest
  induction rest with
  | nil =>
    intro e la _ h
    obtain rfl : e = la := by simpa using h
    rfl
  | cons x rest2 ih =>
    intro e la hch hlast
    rw [List.chain'_cons] at hch
    rw [List.getLast?_cons_cons] at hlast
    have h1 : argmaxD (e :: x :: rest2) = argmaxD (x :: rest2) := by
      show ((x :: rest2).foldl _ e).1 = (rest2.foldl _ x).1
      rw [List.foldl_cons, if_pos hch.1]
    rw [h1]
    exact ih x la hch.2 hlast

theorem getLast?_cons_chainEntries : ∀ (post : List Node) (x : Node)
    (xp pu : List Node) (z : Node),
    post.getLast? = some z →
    ((x, xp) :: chainEntries pu post).getLast? = some (z, pu ++ post) := by
  intro post
  induction post with
  | nil => intro x xp pu z h; simp at h
  | cons v post2 ih =>
    intro x xp pu z hlast
    cases post2 with
    | nil =>
      obtain rfl : v = z := by simpa using hlast
      rfl
    | cons w post3 =>
      rw [List.getLast?_cons_cons] at hlast
      rw [chainEntries, List.getLast?_cons_cons]
      have h2 := ih v (pu ++ [v]) (pu ++ [v]) z hlast
      rw [h2]
      simp

theorem argmax_bfsLengths_pathGraph (a z : Node) (mid : List Node)
    (hnd : (a :: (mid ++ [z])).Nodup) :
    argmaxD (bfsLengths (pathGraph (a :: (mid ++ [z]))) a) = z := by
  rw [bfsLengths, bfsTable_pathGraph a (mid ++ [z]) hnd]
  have hch : List.Chain' (fun x y : Node × ℕ => x.2 < y.2)
      (((a, [a]) :: chainEntries [a] (mid ++ [z])).map
        (fun e => (e.1, e.2.length - 1))) :=
    (List.chain'_map _).mpr (chainEntries_chain_sub (mid ++ [z]) a [a] (by simp))
  have hlast := getLast?_cons_chainEntries (mid ++ [z]) a [a] [a] z
    (by rw [List.getLast?_concat])
  have hl2 : ((((a, [a]) :: chainEntries [a] (mid ++ [z])).map
      (fun e => (e.1, e.2.length - 1))).getLast?) =
      some (z, ([a] ++ (mid ++ [z])).length - 1) := by
    rw [List.getLast?_map, hlast]
    rfl
  rw [List.map_cons] at hch hl2 ⊢
  exact argmaxD_of_chain _ _ _ hch hl2

theorem chainEntries_find_last : ∀ (post pu : List Node) (z : Node),
    post.Nodup → post.getLast? = some z →
    (chainEntries pu post).find? (fun e => e.1 = z) = some (z, pu ++ post) := by
  intro post
  induction post with
  | nil => intro pu z _ h; simp at h
  | cons v post2 ih =>
    intro pu z hnd hlast
    cases post2 with
    | nil =>
      obtain rfl : v = z := by simpa using hlast
      simp [chainEntries]
    | cons w post3 =>
      rw [List.getLast?_cons_cons] at hlast
      have hzmem : z ∈ w :: post3 := mem_of_getLast?_eq _ _ hlast
      have hvz : ¬ v = z := fun h => (List.nodup_cons.mp hnd).1 (h ▸ hzmem)
      rw [chainEntries]
      rw [List.find?_cons_of_neg _ (by simp [hvz])]
      rw [ih (pu ++ [v]) z (List.nodup_cons.mp hnd).2 hlast]
      simp

theorem shortestPathBFS_pathGraph (a z : Node) (mid : List Node)
    (hnd : (a :: (mid ++ [z])).Nodup) :
    shortestPathBFS (pathGraph (a :: (mid ++ [z]))) a z = a :: (mid ++ [z]) := by
  rw [shortestPathBFS, bfsTable_pathGraph a (mid ++ [z]) hnd]
  have haz : ¬ a = z := by
    intro h
    exact (List.nodup_cons.mp hnd).1 (by simp [h])
  rw [List.find?_cons_of_neg _ (by simp [haz])]
  rw [chainEntries_find_last (mid ++ [z]) [a] z (List.nodup_cons.mp hnd).2
    (by rw [List.getLast?_concat])]
  rfl

theorem bfsTable_march (G : Graph) (a : Node) (rest : List Node)
    (H1 : ∀ pre u post, a :: rest = pre ++ u :: post →
      (neighborsG G u).Nodup ∧
      (neighborsG G u).filter (fun x => decide (x ∉ pre ++ [u])) = post.take 1)
    (hfuel : rest.length ≤ G.nodes.length) :
    bfsTable G a = (a, [a]) :: chainEntries [a] rest := by
  have h := bfsAux_chain_march G (a :: rest) H1 rest [] a [a] G.nodes.length
    [(a, [a])] rfl hfuel
  rw [bfsTable]
  simpa using h

theorem H1_pathGraph_rev (ns : List Node) (hnd : ns.Nodup) :
    ∀ pre u post, ns.reverse = pre ++ u :: post →
      (neighborsG (pathGraph ns) u).Nodup ∧
      (neighborsG (pathGraph ns) u).filter (fun x => decide (x ∉ pre ++ [u])) =
        post.take 1 := by
  intro pre u post hsplit
  have hns : ns = post.reverse ++ u :: pre.reverse := by
    have h := congrArg List.reverse hsplit
    simpa [List.reverse_append] using h
  rw [neighborsG_pathGraph ns hnd _ _ u hns]
  rw [List.getLast?_reverse, List.head?_reverse]
  have hndr : (pre ++ u :: post).Nodup := by
    rw [← hsplit]
    exact (List.nodup_reverse).mpr hnd
  obtain ⟨hndp, hndu, hdisj⟩ := List.nodup_append.mp hndr
  cases post with
  | nil =>
    rcases List.eq_nil_or_concat pre with rfl | ⟨pre2, y, hpre⟩
    · exact ⟨by simp, by simp⟩
    · rw [List.concat_eq_append] at hpre
      subst hpre
      rw [List.getLast?_concat]
      have hyin : y ∈ (pre2 ++ [y]) ++ [u] := by simp
      exact ⟨by simp, by simp [List.filter, hyin]⟩
  | cons v post2 =>
    have hvu : ¬ v = u := fun h => (List.nodup_cons.mp hndu).1 (by simp [h])
    have hvpre : v ∉ pre := fun h => hdisj h (by simp)
    rcases List.eq_nil_or_concat pre with rfl | ⟨pre2, y, hpre⟩
    · exact ⟨by simp, by simp [List.filter, hvu]⟩
    · rw [List.concat_eq_append] at hpre
      subst hpre
      rw [List.getLast?_concat]
      have hvp2 : v ∉ pre2 := fun h => hvpre (by simp [h])
      have hvy : ¬ v = y := fun h => hvpre (by simp [h])
      have hyin : y ∈ (pre2 ++ [y]) ++ [u] := by simp
      constructor
      · show (v :: [y]).Nodup
        refine List.nodup_cons.mpr ⟨?_, List.nodup_singleton y⟩
        simp only [List.mem_singleton]
        exact hvy
      · simp [List.filter, hvu, hvp2, hvy, hyin]

theorem bfsTable_pathGraph_rev (a z : Node) (mid : List Node)
    (hnd : (a :: (mid ++ [z])).Nodup) :
    bfsTable (pathGraph (a :: (mid ++ [z]))) z =
      (z, [z]) :: chainEntries [z] (mid.reverse ++ [a]) := by
  have hrev : (a :: (mid ++ [z])).reverse = z :: (mid.reverse ++ [a]) := by
    simp
  refine bfsTable_march _ z (mid.reverse ++ [a]) ?_ ?_
  · intro pre u post h
    exact H1_pathGraph_rev _ hnd pre u post (by rw [hrev]; exact h)
  · show (mid.reverse ++ [a]).length ≤ (a :: (mid ++ [z])).length
    simp

theorem argmaxD_bfs_of_table (G : Graph) (s z : Node) (rest : List Node)
    (htab : bfsTable G s = (s, [s]) :: chainEntries [s] rest)
    (hlast : rest.getLast? = some z) :
    argmaxD (bfsLengths G s) = z := by
  rw [bfsLengths, htab]
  have hch : List.Chain' (fun x y : Node × ℕ => x.2 < y.2)
      (((s, [s]) :: chainEntries [s] rest).map (fun e => (e.1, e.2.length - 1))) :=
    (List.chain'_map _).mpr (chainEntries_chain_sub rest s [s] (by simp))
  have hl := getLast?_cons_chainEntries rest s [s] [s] z hlast
  have hl2 : ((((s, [s]) :: chainEntries [s] rest).map
      (fun e => (e.1, e.2.length - 1))).getLast?) =
      some (z, ([s] ++ rest).length - 1) := by
    rw [List.getLast?_map, hl]
    rfl
  rw [List.map_cons] at hch hl2 ⊢
  exact argmaxD_of_chain _ _ _ hch hl2

theorem shortestPathBFS_of_table (G : Graph) (s z : Node) (rest : List Node)
    (htab : bfsTable G s = (s, [s]) :: chainEntries [s] rest)
    (hnd : (s :: rest).Nodup)
    (hlast : rest.getLast? = some z) :
    shortestPathBFS G s z = s :: rest := by
  rw [shortestPathBFS, htab]
  have hsz : ¬ s = z := by
    intro h
    exact (List.nodup_cons.mp hnd).1 (h ▸ mem_of_getLast?_eq rest z hlast)
  rw [List.find?_cons_of_neg _ (by simp [hsz])]
  rw [chainEntries_find_last rest [s] z (List.nodup_cons.mp hnd).2 hlast]
  rfl

theorem bridge_two_noop (G : Graph) (q : ℚ) (a z : Node)
    (heps : endpointsOf G = [a, z])
    (hnb : distSqLe a z q = false ∨ hasEdge G a z = true) :
    bridge_endpoints G q = G := by
  rw [bridge_endpoints, heps]
  show bridgeLoop q (bridgeInner q a G [z]) [z] = G
  have h1 : bridgeInner q a G [z] = G := by
    rw [bridgeInner, List.foldl_cons, List.foldl_nil]
    rcases hnb with h | h
    · rw [if_neg (by simp [h])]
    · rw [if_neg (by simp [h])]
  rw [h1]
  rfl

/-! ### Lemmas about graph construction from masks -/

theorem filterMap_if {α β : Type} (l : List α) (p : α → Bool) (f : α → β) :
    l.filterMap (fun x => if p x then some (f x) else none) = (l.filter p).map f := by
  induction l with
  | nil => rfl
  | cons a tl ih =>
    rw [List.filterMap_cons, List.filter_cons]
    by_cases hp : p a
    · rw [if_pos hp, if_pos hp, List.map_cons, ih]
    · rw [if_neg hp, if_neg hp, ih]

theorem addCellEdges_filter (mask : ℤ → ℤ → Bool) (h w : ℕ) (dirs : List (ℤ × ℤ))
    (G : Graph) (c : Node) :
    addCellEdges mask h w dirs G c =
      (dirs.filter (fun d => decide (cellCond mask h w c d))).foldl
        (fun G d => addEdge G c (c.1 + d.1, c.2 + d.2)) G := by
  rw [addCellEdges]
  induction dirs generalizing G with
  | nil => rfl
  | cons d rest ih =>
    rw [List.foldl_cons, List.filter_cons]
    by_cases hc : cellCond mask h w c d
    · rw [if_pos hc, if_pos (by simpa using hc), List.foldl_cons]
      exact ih _
    · rw [if_neg hc, if_neg (by simpa using hc)]
      exact ih _

theorem mem_maskCells (mask : ℤ → ℤ → Bool) (h w : ℕ) (p : Node) :
    p ∈ maskCells mask h w ↔
      0 ≤ p.1 ∧ p.1 < (h : ℤ) ∧ 0 ≤ p.2 ∧ p.2 < (w : ℤ) ∧ mask p.1 p.2 = true := by
  rw [maskCells, List.mem_flatMap]
  constructor
  · rintro ⟨y, hy, hp⟩
    rw [List.mem_filterMap] at hp
    obtain ⟨x, hx, hsome⟩ := hp
    rw [List.mem_range] at hy hx
    by_cases hm : mask (y : ℤ) (x : ℤ)
    · rw [if_pos hm, Option.some_inj] at hsome
      subst hsome
      exact ⟨Int.ofNat_nonneg y, (show (y : ℤ) < (h : ℤ) by exact_mod_cast hy),
        Int.ofNat_nonneg x, (show (x : ℤ) < (w : ℤ) by exact_mod_cast hx), hm⟩
    · rw [if_neg hm] at hsome
      exact absurd hsome (by simp)
  · rintro ⟨h1, h2, h3, h4, h5⟩
    refine ⟨p.1.toNat, ?_, ?_⟩
    · rw [List.mem_range]
      omega
    · rw [List.mem_filterMap]
      refine ⟨p.2.toNat, by rw [List.mem_range]; omega, ?_⟩
      have e1 : ((p.1.toNat : ℤ)) = p.1 := by omega
      have e2 : ((p.2.toNat : ℤ)) = p.2 := by omega
      rw [e1, e2, if_pos h5]

theorem maskCells_nodup (mask : ℤ → ℤ → Bool) (h w : ℕ) :
    (maskCells mask h w).Nodup := by
  rw [maskCells]
  have hrow : ∀ y : ℕ, ((List.range w).filterMap (fun (x : ℕ) =>
      if mask (y : ℤ) (x : ℤ) then some (((y : ℤ), (x : ℤ)) : Node) else none)).Nodup := by
    intro y
    rw [filterMap_if]
    refine List.Nodup.map ?_ (List.Nodup.filter _ (List.nodup_range w))
    intro a b hab
    simpa using congrArg Prod.snd hab
  have hfst : ∀ y : ℕ, ∀ p ∈ ((List.range w).filterMap (fun (x : ℕ) =>
      if mask (y : ℤ) (x : ℤ) then some (((y : ℤ), (x : ℤ)) : Node) else none)), p.1 = (y : ℤ) := by
    intro y p hp
    rw [filterMap_if, List.mem_map] at hp
    obtain ⟨x, _, hx⟩ := hp
    rw [← hx]
  have main : ∀ (l : List ℕ), l.Nodup →
      (l.flatMap (fun (y : ℕ) => (List.range w).filterMap (fun (x : ℕ) =>
        if mask (y : ℤ) (x : ℤ) then some (((y : ℤ), (x : ℤ)) : Node) else none))).Nodup := by
    intro l
    induction l with
    | nil => simp
    | cons y rest ih =>
      intro hnd
      rw [List.flatMap_cons]
      refine List.Nodup.append (hrow y) (ih (List.nodup_cons.mp hnd).2) ?_
      intro p hp1 hp2
      rw [List.mem_flatMap] at hp2
      obtain ⟨y2, hy2, hp2⟩ := hp2
      have e1 := hfst y p hp1
      have e2 := hfst y2 p hp2
      have : y = y2 := by omega
      subst this
      exact (List.nodup_cons.mp hnd).1 hy2
  exact main (List.range h) (List.nodup_range h)

theorem addEdge_of_hasEdge (G : Graph) (u v : Node) (hu : u ∈ G.nodes)
    (hv : v ∈ G.nodes) (he : hasEdge G u v = true) : addEdge G u v = G := by
  rw [addEdge, addNode_nodes_of_mem G u hu]
  rw [addNode_nodes_of_mem G v hv, if_pos he]

theorem addNode_fold_fresh (cells : List Node) (G : Graph) (hnd : cells.Nodup)
    (hfresh : ∀ c ∈ cells, c ∉ G.nodes) :
    (cells.foldl addNode G).nodes = G.nodes ++ cells ∧
    (cells.foldl addNode G).edges = G.edges := by
  induction cells generalizing G with
  | nil => simp
  | cons c rest ih =>
    rw [List.foldl_cons]
    have hstep : addNode G c = ⟨G.nodes ++ [c], G.edges⟩ := by
      rw [addNode, if_neg (hfresh c (by simp))]
    rw [hstep]
    have hres := ih ⟨G.nodes ++ [c], G.edges⟩ (List.nodup_cons.mp hnd).2
      (by
        intro x hx
        simp only [List.mem_append, List.mem_singleton]
        rintro (hmem | hmem)
        · exact hfresh x (by simp [hx]) hmem
        · subst hmem
          exact (List.nodup_cons.mp hnd).1 hx)
    refine ⟨?_, hres.2⟩
    rw [hres.1]
    simp

theorem foldl_addEdge_nodes (ts : List Node) (c : Node) (G : Graph)
    (hc : c ∈ G.nodes) (hts : ∀ t ∈ ts, t ∈ G.nodes) :
    ((ts.foldl (fun G2 t => addEdge G2 c t) G)).nodes = G.nodes := by
  induction ts generalizing G with
  | nil => rfl
  | cons t rest ih =>
    rw [List.foldl_cons]
    have hn := addEdge_nodes_of_mem G c t hc (hts t (by simp))
    rw [ih (addEdge G c t) (hn ▸ hc) (fun x hx => hn ▸ hts x (by simp [hx]))]
    exact hn

theorem skeleton_to_graph_nodes (mask : ℤ → ℤ → Bool) (h w : ℕ) (conn : ℕ) :
    (skeleton_to_graph mask h w conn).nodes = maskCells mask h w := by
  rw [skeleton_to_graph]
  have h0 := addNode_fold_fresh (maskCells mask h w) ⟨[], []⟩
    (maskCells_nodup mask h w) (by simp)
  set G0 := (maskCells mask h w).foldl addNode ⟨[], []⟩ with hG0
  have hn0 : G0.nodes = maskCells mask h w := by
    rw [h0.1]
    simp
  have main : ∀ (cs : List Node), (∀ c ∈ cs, c ∈ maskCells mask h w) →
      ∀ (G : Graph), G.nodes = maskCells mask h w →
      ((cs.foldl (addCellEdges mask h w (if conn = 4 then dirs4 else dirs8)) G)).nodes =
        maskCells mask h w := by
    intro cs
    induction cs with
    | nil => intro _ G hG; exact hG
    | cons c rest ih =>
      intro hcs G hG
      rw [List.foldl_cons]
      refine ih (fun x hx => hcs x (by simp [hx])) _ ?_
      rw [addCellEdges_filter, ← List.foldl_map
        (fun (d : ℤ × ℤ) => ((c.1 + d.1, c.2 + d.2) : Node))
        (fun (G2 : Graph) (t : Node) => addEdge G2 c t)]
      rw [foldl_addEdge_nodes _ c G (hG ▸ hcs c (by simp)) ?_]
      · exact hG
      · intro t ht
        rw [List.mem_map] at ht
        obtain ⟨d, hd, hdt⟩ := ht
        rw [List.mem_filter] at hd
        have hcond : cellCond mask h w c d := of_decide_eq_true hd.2
        rw [hG, mem_maskCells, ← hdt]
        obtain ⟨h1, h2, h3, h4, h5⟩ := hcond
        exact ⟨h1, h2, h3, h4, h5⟩
  exact main (maskCells mask h w) (fun c hc => hc) G0 hn0

/-- The four unit steps that advance in row-major scan order; every straight
8-connected line, read in scan order, advances by one of these. -/
def scanDirs : List (ℤ × ℤ) := [(0, 1), (1, 0), (1, 1), (1, -1)]

/-- The `i`-th pixel of a straight line starting at `p0` with step `f`. -/
def lineCell (p0 : Node) (f : ℤ × ℤ) (i : ℕ) : Node :=
  (p0.1 + (i : ℤ) * f.1, p0.2 + (i : ℤ) * f.2)

/-- The pixels of a straight line of `k` cells. -/
def lineCells (p0 : Node) (f : ℤ × ℤ) (k : ℕ) : List Node :=
  (List.range k).map (lineCell p0 f)

/-- The first `m` consecutive-pixel edges of a straight line. -/
def lineEdgesUpTo (p0 : Node) (f : ℤ × ℤ) (m : ℕ) : List (Node × Node) :=
  (List.range m).map (fun i => (lineCell p0 f i, lineCell p0 f (i + 1)))

/-- A mask whose foreground is exactly a straight line of `k` pixels. -/
def lineMask (p0 : Node) (f : ℤ × ℤ) (k : ℕ) : ℤ → ℤ → Bool :=
  fun y x => decide (((y, x) : Node) ∈ lineCells p0 f k)

theorem mem_lineCells (p0 : Node) (f : ℤ × ℤ) (k : ℕ) (q : Node) :
    q ∈ lineCells p0 f k ↔ ∃ j, j < k ∧ q = lineCell p0 f j := by
  rw [lineCells, List.mem_map]
  constructor
  · rintro ⟨j, hj, rfl⟩
    exact ⟨j, List.mem_range.mp hj, rfl⟩
  · rintro ⟨j, hj, rfl⟩
    exact ⟨j, List.mem_range.mpr hj, rfl⟩

theorem lineCell_inj (p0 : Node) (f : ℤ × ℤ) (hf : f ∈ scanDirs) (a b : ℕ)
    (h : lineCell p0 f a = lineCell p0 f b) : a = b := by
  simp only [scanDirs, List.mem_cons, List.not_mem_nil, or_false] at hf
  rw [lineCell, lineCell, Prod.mk.injEq] at h
  obtain ⟨h1, h2⟩ := h
  rcases hf with rfl | rfl | rfl | rfl <;> simp only at h1 h2 <;> omega

theorem cellCond_line (p0 : Node) (f : ℤ × ℤ) (k h w : ℕ) (hf : f ∈ scanDirs)
    (hmask : maskCells (lineMask p0 f k) h w = lineCells p0 f k)
    (i : ℕ) (hi : i < k) (d : ℤ × ℤ) (hd : d ∈ dirs8) :
    cellCond (lineMask p0 f k) h w (lineCell p0 f i) d ↔
      ((d = f ∧ i + 1 < k) ∨ (d = (-f.1, -f.2) ∧ 1 ≤ i)) := by
  have hbounds : ∀ q ∈ lineCells p0 f k,
      0 ≤ q.1 ∧ q.1 < (h : ℤ) ∧ 0 ≤ q.2 ∧ q.2 < (w : ℤ) ∧ lineMask p0 f k q.1 q.2 = true := by
    intro q hq
    have := (mem_maskCells (lineMask p0 f k) h w q).mp (hmask ▸ hq)
    exact this
  constructor
  · rintro ⟨h1, h2, h3, h4, h5⟩
    clear h1 h2 h3 h4 hbounds hmask
    rw [lineMask, decide_eq_true_eq, mem_lineCells] at h5
    obtain ⟨j, hj, hq⟩ := h5
    rw [lineCell, lineCell, Prod.mk.injEq] at hq
    obtain ⟨hq1, hq2⟩ := hq
    simp only [scanDirs, List.mem_cons, List.not_mem_nil, or_false] at hf
    simp only [dirs8, List.mem_cons, List.not_mem_nil, or_false] at hd
    rcases hf with rfl | rfl | rfl | rfl <;>
      rcases hd with rfl | rfl | rfl | rfl | rfl | rfl | rfl | rfl <;>
        · simp only [Prod.mk.injEq, neg_zero, neg_neg, mul_zero, mul_one, mul_neg,
            add_zero, add_assoc, add_right_inj, true_and, and_true] at hq1 hq2 ⊢ <;> omega
  · rintro (⟨rfl, hik⟩ | ⟨rfl, hi1⟩)
    · have hmem := hbounds (lineCell p0 d (i + 1))
        ((mem_lineCells p0 d k _).mpr ⟨i + 1, hik, rfl⟩)
      have e1 : (lineCell p0 d i).1 + d.1 = (lineCell p0 d (i + 1)).1 := by
        rw [lineCell, lineCell]
        push_cast
        ring
      have e2 : (lineCell p0 d i).2 + d.2 = (lineCell p0 d (i + 1)).2 := by
        rw [lineCell, lineCell]
        push_cast
        ring
      rw [cellCond, e1, e2]
      exact hmem
    · have hmem := hbounds (lineCell p0 f (i - 1))
        ((mem_lineCells p0 f k _).mpr ⟨i - 1, by omega, rfl⟩)
      have e1 : (lineCell p0 f i).1 + (-f.1, -f.2).1 = (lineCell p0 f (i - 1)).1 := by
        rw [lineCell, lineCell]
        have hc : ((i - 1 : ℕ) : ℤ) = (i : ℤ) - 1 := by omega
        rw [hc]
        ring
      have e2 : (lineCell p0 f i).2 + (-f.1, -f.2).2 = (lineCell p0 f (i - 1)).2 := by
        rw [lineCell, lineCell]
        have hc : ((i - 1 : ℕ) : ℤ) = (i : ℤ) - 1 := by omega
        rw [hc]
        ring
      rw [cellCond, e1, e2]
      exact hmem


theorem filter_dirs8_line (p0 : Node) (f : ℤ × ℤ) (k h w : ℕ) (hf : f ∈ scanDirs)
    (hmask : maskCells (lineMask p0 f k) h w = lineCells p0 f k)
    (i : ℕ) (hi : i < k) :
    dirs8.filter (fun d => decide (cellCond (lineMask p0 f k) h w (lineCell p0 f i) d)) =
      (if 1 ≤ i then [((-f.1, -f.2) : ℤ × ℤ)] else []) ++ (if i + 1 < k then [f] else []) := by
  have hcongr : dirs8.filter
      (fun d => decide (cellCond (lineMask p0 f k) h w (lineCell p0 f i) d)) =
      dirs8.filter (fun d => decide ((d = f ∧ i + 1 < k) ∨ (d = (-f.1, -f.2) ∧ 1 ≤ i))) := by
    refine List.filter_congr ?_
    intro d hd
    simp only [decide_eq_decide]
    exact cellCond_line p0 f k h w hf hmask i hi d hd
  rw [hcongr]
  clear hcongr hmask
  simp only [scanDirs, List.mem_cons, List.not_mem_nil, or_false] at hf
  rcases hf with rfl | rfl | rfl | rfl <;>
    by_cases hi1 : 1 ≤ i <;>
      by_cases hik : i + 1 < k <;>
        (simp [dirs8, hi1, hik, Prod.mk.injEq] <;> decide)

theorem lineCell_step (p0 : Node) (f : ℤ × ℤ) (i : ℕ) :
    (((lineCell p0 f i).1 + f.1, (lineCell p0 f i).2 + f.2) : Node) =
      lineCell p0 f (i + 1) := by
  rw [lineCell, lineCell, Prod.mk.injEq]
  push_cast
  constructor <;> ring

theorem lineCell_back (p0 : Node) (f : ℤ × ℤ) (i : ℕ) (hi : 1 ≤ i) :
    (((lineCell p0 f i).1 + -f.1, (lineCell p0 f i).2 + -f.2) : Node) =
      lineCell p0 f (i - 1) := by
  rw [lineCell, lineCell, Prod.mk.injEq]
  have hc : ((i - 1 : ℕ) : ℤ) = (i : ℤ) - 1 := by omega
  rw [hc]
  constructor <;> ring

theorem lineEdgesUpTo_succ (p0 : Node) (f : ℤ × ℤ) (m : ℕ) :
    lineEdgesUpTo p0 f (m + 1) =
      lineEdgesUpTo p0 f m ++ [(lineCell p0 f m, lineCell p0 f (m + 1))] := by
  rw [lineEdgesUpTo, lineEdgesUpTo, List.range_succ, List.map_append]
  rfl

theorem hasEdge_line_back (p0 : Node) (f : ℤ × ℤ) (ns : List Node) (m j : ℕ)
    (hj : j < m) :
    hasEdge ⟨ns, lineEdgesUpTo p0 f m⟩ (lineCell p0 f (j + 1)) (lineCell p0 f j) = true := by
  rw [hasEdge, List.any_eq_true]
  refine ⟨(lineCell p0 f j, lineCell p0 f (j + 1)), ?_, by simp⟩
  rw [lineEdgesUpTo]
  exact List.mem_map.mpr ⟨j, List.mem_range.mpr hj, rfl⟩

theorem hasEdge_line_fwd (p0 : Node) (f : ℤ × ℤ) (hf : f ∈ scanDirs)
    (ns : List Node) (m i : ℕ) (hm : m ≤ i) :
    hasEdge ⟨ns, lineEdgesUpTo p0 f m⟩ (lineCell p0 f i) (lineCell p0 f (i + 1)) = false := by
  rw [hasEdge]
  rw [List.any_eq_false]
  rintro e he
  rw [lineEdgesUpTo, List.mem_map] at he
  obtain ⟨j, hj, rfl⟩ := he
  rw [List.mem_range] at hj
  simp only [decide_eq_true_eq, not_or, not_and]
  constructor
  · intro h1 h2
    have := lineCell_inj p0 f hf j i h1
    omega
  · intro h1 h2
    have e1 := lineCell_inj p0 f hf j (i + 1) h1
    have e2 := lineCell_inj p0 f hf (j + 1) i h2
    omega

theorem addEdge_new (G : Graph) (u v : Node) (hu : u ∈ G.nodes) (hv : v ∈ G.nodes)
    (he : hasEdge G u v = false) :
    addEdge G u v = ⟨G.nodes, G.edges ++ [(u, v)]⟩ := by
  rw [addEdge, addNode_nodes_of_mem G u hu]
  rw [addNode_nodes_of_mem G v hv, if_neg (by simp [he])]

theorem addCellEdges_line_step (p0 : Node) (f : ℤ × ℤ) (k h w : ℕ) (hf : f ∈ scanDirs)
    (hmask : maskCells (lineMask p0 f k) h w = lineCells p0 f k)
    (i : ℕ) (hi : i < k) :
    addCellEdges (lineMask p0 f k) h w dirs8
      ⟨lineCells p0 f k, lineEdgesUpTo p0 f (min i (k - 1))⟩ (lineCell p0 f i) =
    ⟨lineCells p0 f k, lineEdgesUpTo p0 f (min (i + 1) (k - 1))⟩ := by
  rw [addCellEdges_filter, filter_dirs8_line p0 f k h w hf hmask i hi]
  have hmemi : lineCell p0 f i ∈ lineCells p0 f k :=
    (mem_lineCells p0 f k _).mpr ⟨i, hi, rfl⟩
  by_cases hi1 : 1 ≤ i <;> by_cases hik : i + 1 < k
  · -- interior cell: back edge already present, forward edge is new
    have hmin : min i (k - 1) = i := by omega
    have hmin2 : min (i + 1) (k - 1) = i + 1 := by omega
    rw [if_pos hi1, if_pos hik, hmin, hmin2]
    rw [List.cons_append, List.nil_append, List.foldl_cons, List.foldl_cons, List.foldl_nil]
    have hback : addEdge ⟨lineCells p0 f k, lineEdgesUpTo p0 f i⟩ (lineCell p0 f i)
        ((lineCell p0 f i).1 + -f.1, (lineCell p0 f i).2 + -f.2) =
        ⟨lineCells p0 f k, lineEdgesUpTo p0 f i⟩ := by
      rw [lineCell_back p0 f i hi1]
      refine addEdge_of_hasEdge _ _ _ hmemi
        ((mem_lineCells p0 f k _).mpr ⟨i - 1, by omega, rfl⟩) ?_
      have := hasEdge_line_back p0 f (lineCells p0 f k) i (i - 1) (by omega)
      rw [show i - 1 + 1 = i from by omega] at this
      exact this
    rw [hback]
    rw [show ((lineCell p0 f i).1 + f.1, (lineCell p0 f i).2 + f.2) =
      lineCell p0 f (i + 1) from lineCell_step p0 f i]
    rw [addEdge_new ⟨lineCells p0 f k, lineEdgesUpTo p0 f i⟩ (lineCell p0 f i)
      (lineCell p0 f (i + 1)) hmemi ((mem_lineCells p0 f k _).mpr ⟨i + 1, hik, rfl⟩)
      (hasEdge_line_fwd p0 f hf (lineCells p0 f k) i i (le_refl i))]
    rw [← lineEdgesUpTo_succ]
  · -- last cell of a line with at least 2 cells: only the back edge, a no-op
    have hie : i = k - 1 := by omega
    have hmin : min i (k - 1) = i := by omega
    have hmin2 : min (i + 1) (k - 1) = i := by omega
    rw [if_pos hi1, if_neg hik, hmin, hmin2]
    rw [List.append_nil, List.foldl_cons, List.foldl_nil]
    rw [lineCell_back p0 f i hi1]
    refine addEdge_of_hasEdge _ _ _ hmemi
      ((mem_lineCells p0 f k _).mpr ⟨i - 1, by omega, rfl⟩) ?_
    have := hasEdge_line_back p0 f (lineCells p0 f k) i (i - 1) (by omega)
    rw [show i - 1 + 1 = i from by omega] at this
    exact this
  · -- first cell of a line with at least 2 cells: only the forward edge
    have hi0 : i = 0 := by omega
    subst hi0
    have hmin : min 0 (k - 1) = 0 := by omega
    have hmin2 : min 1 (k - 1) = 1 := by omega
    rw [if_neg hi1, if_pos hik, hmin, hmin2]
    rw [List.nil_append, List.foldl_cons, List.foldl_nil]
    rw [show ((lineCell p0 f 0).1 + f.1, (lineCell p0 f 0).2 + f.2) =
      lineCell p0 f 1 from lineCell_step p0 f 0]
    rw [addEdge_new ⟨lineCells p0 f k, lineEdgesUpTo p0 f 0⟩ (lineCell p0 f 0)
      (lineCell p0 f 1) hmemi ((mem_lineCells p0 f k _).mpr ⟨1, hik, rfl⟩)
      (by simpa using hasEdge_line_fwd p0 f hf (lineCells p0 f k) 0 0 (le_refl 0))]
    show (⟨lineCells p0 f k,
      lineEdgesUpTo p0 f 0 ++ [(lineCell p0 f 0, lineCell p0 f 1)]⟩ : Graph) =
      ⟨lineCells p0 f k, lineEdgesUpTo p0 f 1⟩
    rw [← lineEdgesUpTo_succ p0 f 0]
  · -- single-cell line: nothing fires
    have hi0 : i = 0 := by omega
    subst hi0
    have hk1 : k = 1 := by omega
    subst hk1
    rw [if_neg hi1, if_neg hik]
    rfl

theorem foldl_range_inv {beta : Type} (P : ℕ → beta → Prop) (f : beta → ℕ → beta)
    (k : ℕ) (b0 : beta) (h0 : P 0 b0)
    (hstep : ∀ i b, i < k → P i b → P (i + 1) (f b i)) :
    P k ((List.range k).foldl f b0) := by
  induction k with
  | zero => exact h0
  | succ k ih =>
    rw [List.range_succ, List.foldl_append, List.foldl_cons, List.foldl_nil]
    exact hstep k _ (by omega) (ih (fun i b hi hb => hstep i b (by omega) hb))

theorem skeleton_line_eq (p0 : Node) (f : ℤ × ℤ) (k h w : ℕ) (hf : f ∈ scanDirs)
    (hk : 1 ≤ k) (hmask : maskCells (lineMask p0 f k) h w = lineCells p0 f k) :
    skeleton_to_graph (lineMask p0 f k) h w 8 =
      ⟨lineCells p0 f k, lineEdgesUpTo p0 f (k - 1)⟩ := by
  rw [skeleton_to_graph]
  have h0 := addNode_fold_fresh (maskCells (lineMask p0 f k) h w) ⟨[], []⟩
    (maskCells_nodup _ h w) (by simp)
  set G0 := (maskCells (lineMask p0 f k) h w).foldl addNode ⟨[], []⟩ with hG0
  have hG0eq : G0 = ⟨lineCells p0 f k, lineEdgesUpTo p0 f 0⟩ := by
    have he : G0 = ⟨G0.nodes, G0.edges⟩ := rfl
    rw [he, h0.1, h0.2, hmask]
    rfl
  rw [hG0eq, hmask]
  have hdirs : (if (8 : ℕ) = 4 then dirs4 else dirs8) = dirs8 := rfl
  rw [hdirs, lineCells, List.foldl_map]
  have hfin := foldl_range_inv
    (fun i G => G = ⟨lineCells p0 f k, lineEdgesUpTo p0 f (min i (k - 1))⟩)
    (fun G i => addCellEdges (lineMask p0 f k) h w dirs8 G (lineCell p0 f i))
    k ⟨lineCells p0 f k, lineEdgesUpTo p0 f 0⟩
    (by
      show (⟨lineCells p0 f k, lineEdgesUpTo p0 f 0⟩ : Graph) =
        ⟨lineCells p0 f k, lineEdgesUpTo p0 f (min 0 (k - 1))⟩
      rw [show min 0 (k - 1) = 0 from by omega])
    (by
      intro i G hi hG
      show addCellEdges (lineMask p0 f k) h w dirs8 G (lineCell p0 f i) =
        ⟨lineCells p0 f k, lineEdgesUpTo p0 f (min (i + 1) (k - 1))⟩
      rw [hG]
      exact addCellEdges_line_step p0 f k h w hf hmask i hi)
  have hfin2 : (List.range k).foldl
      (fun G i => addCellEdges (lineMask p0 f k) h w dirs8 G (lineCell p0 f i))
      ⟨lineCells p0 f k, lineEdgesUpTo p0 f 0⟩ =
      ⟨lineCells p0 f k, lineEdgesUpTo p0 f (min k (k - 1))⟩ := hfin
  rw [show min k (k - 1) = k - 1 from by omega] at hfin2
  exact hfin2

/-- A mask whose foreground is exactly the four corner cells of an `H×W`
grid. -/
def cornerMask (H W : ℕ) : ℤ → ℤ → Bool :=
  fun y x => decide ((y = 0 ∨ y = (H : ℤ) - 1) ∧ (x = 0 ∨ x = (W : ℤ) - 1))

theorem addCellEdges_id (mask : ℤ → ℤ → Bool) (h w : ℕ) (dirs : List (ℤ × ℤ))
    (G : Graph) (c : Node) (hnone : ∀ d ∈ dirs, ¬cellCond mask h w c d) :
    addCellEdges mask h w dirs G c = G := by
  rw [addCellEdges_filter, List.filter_eq_nil_iff.mpr (by simpa using hnone)]
  rfl

theorem filter_zero_range (n : ℕ) (hn : 1 ≤ n) :
    (List.range n).filter (fun x => decide (x = 0)) = [0] := by
  induction n with
  | zero => omega
  | succ n ih =>
    by_cases h1 : 1 ≤ n
    · rw [List.range_succ, List.filter_append, ih h1]
      rw [show (List.filter (fun x => decide (x = 0)) [n]) = [] from by
        simp only [List.filter_cons, List.filter_nil, decide_eq_true_eq]
        rw [if_neg (by omega)]]
      simp
    · have : n = 0 := by omega
      subst this
      rfl

theorem filter_corner_cols (W : ℕ) (hW : 2 ≤ W) :
    (List.range W).filter (fun x => decide (x = 0 ∨ x = W - 1)) = [0, W - 1] := by
  obtain ⟨W2, rfl⟩ : ∃ W2, W = W2 + 1 := ⟨W - 1, by omega⟩
  rw [List.range_succ, List.filter_append]
  have h1 : (List.range W2).filter (fun x => decide (x = 0 ∨ x = W2 + 1 - 1)) =
      (List.range W2).filter (fun x => decide (x = 0)) := by
    refine List.filter_congr ?_
    intro x hx
    rw [List.mem_range] at hx
    simp only [decide_eq_decide]
    omega
  rw [h1, filter_zero_range W2 (by omega)]
  simp

theorem flatMap_zero_row (n : ℕ) (hn : 1 ≤ n) (f : ℕ → List Node)
    (h : ∀ y, y ≠ 0 → y < n → f y = []) :
    (List.range n).flatMap f = f 0 := by
  induction n with
  | zero => omega
  | succ n ih =>
    by_cases h1 : 1 ≤ n
    · rw [List.range_succ, List.flatMap_append,
        ih h1 (fun y hy hlt => h y hy (by omega))]
      rw [show [n].flatMap f = [] from by simp [h n (by omega) (by omega)]]
      simp
    · have : n = 0 := by omega
      subst this
      rw [show List.range 1 = [0] from rfl]
      simp

theorem flatMap_corner_rows (H : ℕ) (hH : 2 ≤ H) (f : ℕ → List Node)
    (hmid : ∀ y, y ≠ 0 → y ≠ H - 1 → f y = []) :
    (List.range H).flatMap f = f 0 ++ f (H - 1) := by
  obtain ⟨H2, rfl⟩ : ∃ H2, H = H2 + 1 := ⟨H - 1, by omega⟩
  rw [List.range_succ, List.flatMap_append,
    flatMap_zero_row H2 (by omega) f (fun y hy hlt => hmid y hy (by omega))]
  simp

theorem maskCells_corner (H W : ℕ) (hH : 2 ≤ H) (hW : 2 ≤ W) :
    maskCells (cornerMask H W) H W =
      [((0 : ℤ), (0 : ℤ)), (0, (W : ℤ) - 1), ((H : ℤ) - 1, 0), ((H : ℤ) - 1, (W : ℤ) - 1)] := by
  rw [maskCells]
  rw [flatMap_corner_rows H hH _ ?_]
  · have hrow : ∀ (y : ℕ), ((y : ℤ) = 0 ∨ (y : ℤ) = (H : ℤ) - 1) →
        ((List.range W).filterMap (fun (x : ℕ) =>
          if cornerMask H W (y : ℤ) (x : ℤ) then some (((y : ℤ), (x : ℤ)) : Node) else none)) =
        [((y : ℤ), (0 : ℤ)), ((y : ℤ), (W : ℤ) - 1)] := by
      intro y hy
      rw [filterMap_if]
      have hcongr : (List.range W).filter (fun (x : ℕ) => cornerMask H W (y : ℤ) (x : ℤ)) =
          (List.range W).filter (fun (x : ℕ) => decide (x = 0 ∨ x = W - 1)) := by
        refine List.filter_congr ?_
        intro x hx
        rw [List.mem_range] at hx
        rw [cornerMask]
        simp only [decide_eq_decide]
        constructor
        · rintro ⟨_, hx2⟩
          omega
        · intro hx2
          exact ⟨hy, by omega⟩
      rw [hcongr, filter_corner_cols W hW]
      have hcast : ((W - 1 : ℕ) : ℤ) = (W : ℤ) - 1 := by omega
      simp [hcast]
    rw [hrow 0 (Or.inl rfl), hrow (H - 1) (Or.inr (by omega))]
    have hcast : ((H - 1 : ℕ) : ℤ) = (H : ℤ) - 1 := by omega
    rw [hcast]
    rfl
  · intro y hy0 hyH
    refine List.filterMap_eq_nil_iff.mpr ?_
    intro x hx
    have hmask : cornerMask H W (y : ℤ) (x : ℤ) = false := by
      rw [cornerMask]
      simp only [decide_eq_false_iff_not, not_and]
      intro hy
      exfalso
      rcases hy with hy | hy
      · exact hy0 (by exact_mod_cast hy)
      · apply hyH
        omega
    rw [hmask]
    simp

theorem cornerMask_no_neighbor (H W : ℕ) (hH : 3 ≤ H) (hW : 3 ≤ W) (c : Node)
    (hc : cornerMask H W c.1 c.2 = true) :
    ∀ d ∈ dirs8, ¬cellCond (cornerMask H W) H W c d := by
  intro d hd hcond
  obtain ⟨_, _, _, _, hm⟩ := hcond
  rw [cornerMask, decide_eq_true_eq] at hm hc
  simp only [dirs8, List.mem_cons, List.not_mem_nil, or_false] at hd
  rcases hd with rfl | rfl | rfl | rfl | rfl | rfl | rfl | rfl <;>
    · simp only at hm
      omega

theorem skeleton_to_graph_edges_nil (mask : ℤ → ℤ → Bool) (h w conn : ℕ)
    (hno : ∀ c ∈ maskCells mask h w, ∀ d ∈ (if conn = 4 then dirs4 else dirs8),
      ¬cellCond mask h w c d) :
    (skeleton_to_graph mask h w conn).edges = [] := by
  rw [skeleton_to_graph]
  have h0 := addNode_fold_fresh (maskCells mask h w) ⟨[], []⟩
    (maskCells_nodup mask h w) (by simp)
  have main : ∀ (cs : List Node), (∀ c ∈ cs, c ∈ maskCells mask h w) →
      ∀ (G : Graph),
      (cs.foldl (addCellEdges mask h w (if conn = 4 then dirs4 else dirs8)) G) = G := by
    intro cs
    induction cs with
    | nil => intro _ G; rfl
    | cons c rest ih =>
      intro hcs G
      rw [List.foldl_cons,
        addCellEdges_id mask h w _ G c (hno c (hcs c (by simp))),
        ih (fun x hx => hcs x (by simp [hx]))]
  rw [main (maskCells mask h w) (fun c hc => hc) _, h0.2]

theorem skeleton_corner_eq (H W : ℕ) (hH : 3 ≤ H) (hW : 3 ≤ W) :
    skeleton_to_graph (cornerMask H W) H W 8 =
      ⟨[((0 : ℤ), (0 : ℤ)), (0, (W : ℤ) - 1), ((H : ℤ) - 1, 0), ((H : ℤ) - 1, (W : ℤ) - 1)],
        []⟩ := by
  have hno : ∀ c ∈ maskCells (cornerMask H W) H W,
      ∀ d ∈ (if (8 : ℕ) = 4 then dirs4 else dirs8), ¬cellCond (cornerMask H W) H W c d := by
    intro c hc d hd
    have hmp := ((mem_maskCells (cornerMask H W) H W c).mp hc).2.2.2.2
    exact cornerMask_no_neighbor H W hH hW c hmp d (by simpa using hd)
  have hn := skeleton_to_graph_nodes (cornerMask H W) H W 8
  have he := skeleton_to_graph_edges_nil (cornerMask H W) H W 8 hno
  have heta : skeleton_to_graph (cornerMask H W) H W 8 =
      ⟨(skeleton_to_graph (cornerMask H W) H W 8).nodes,
       (skeleton_to_graph (cornerMask H W) H W 8).edges⟩ := rfl
  rw [heta, hn, he, maskCells_corner H W (by omega) (by omega)]

/-- C9: `simplify_route` returns its input unchanged whenever the input has
fewer than 3 points, and whenever the simplification result would have fewer
than 2 points; consequently every input with at least 2 points yields an
output with at least 2 points. -/
theorem simplify_route_guards {α : Type} (simpF : List α → List α) (coords : List α) :
    (coords.length < 3 → simplify_route simpF coords = coords) ∧
    ((simpF coords).length < 2 → simplify_route simpF coords = coords) ∧
    (2 ≤ coords.length → 2 ≤ (simplify_route simpF coords).length) := by
  unfold simplify_route
  refine ⟨fun h => by simp [h], fun h => ?_, fun h => ?_⟩
  · by_cases h3 : coords.length < 3 <;> simp [h3, h]
  · by_cases h3 : coords.length < 3
    · simpa [h3] using h
    · by_cases h2 : (simpF coords).length < 2
      · simpa [h3, h2] using h
      · simpa [h3, h2] using Nat.le_of_not_lt h2

/-- Witness for C9 at a concrete input. -/
theorem simplify_route_guards_witness :
    ([((0 : ℤ), (0 : ℤ)), (1, 1)].length < 3 ∧
      simplify_route (fun l => l) [((0 : ℤ), (0 : ℤ)), (1, 1)] = [(0, 0), (1, 1)]) ∧
    2 ≤ (simplify_route (fun l => l) [((0 : ℤ), (0 : ℤ)), (1, 1)]).length :=
  ⟨⟨by decide, (simplify_route_guards (fun l => l) [((0 : ℤ), (0 : ℤ)), (1, 1)]).1 (by decide)⟩,
    (simplify_route_guards (fun l => l) [((0 : ℤ), (0 : ℤ)), (1, 1)]).2.2 (by decide)⟩

/-- C10: `find_trunk_longest_path` never modifies its input graph: the
caller's graph after the call has exactly the input's node and edge lists,
because bridging is applied to an internal copy; the trunk itself is still
computed from the bridged copy. -/
theorem find_trunk_longest_path_frame (G : Graph) :
    (find_trunk_longest_path_call G).2.nodes = G.nodes ∧
    (find_trunk_longest_path_call G).2.edges = G.edges ∧
    (find_trunk_longest_path_call G).1 =
      (if (endpointsOf (bridge_endpoints G (5 / 2))).isEmpty then
        trunkFallback (bridge_endpoints G (5 / 2))
      else
        trunkFromEndpoints (bridge_endpoints G (5 / 2))
          (endpointsOf (bridge_endpoints G (5 / 2)))) :=
  ⟨rfl, rfl, rfl⟩

/-- C5: when the bridged graph has no degree-1 node,
`find_trunk_longest_path` falls back to a BFS sweep from the first node `s`,
returning the shortest path from `s` to the node at maximum distance; and it
returns an empty path when the graph has no nodes at all. -/
theorem find_trunk_longest_path_fallback (G : Graph)
    (h : endpointsOf (bridge_endpoints G (5 / 2)) = []) :
    (G.nodes = [] → find_trunk_longest_path G = []) ∧
    (∀ s rest, (bridge_endpoints G (5 / 2)).nodes = s :: rest →
      find_trunk_longest_path G =
        shortestPathBFS (bridge_endpoints G (5 / 2)) s
          (argmaxD (bfsLengths (bridge_endpoints G (5 / 2)) s))) := by
  constructor
  · intro hn
    have heps : endpointsOf G = [] := by
      simp [endpointsOf, hn]
    have hb : bridge_endpoints G (5 / 2) = G := bridge_of_no_endpoints G (5 / 2) heps
    rw [find_trunk_longest_path]
    simp [hb, heps, hn, trunkFallback]
  · intro s rest hns
    rw [find_trunk_longest_path]
    simp only [h, List.isEmpty_nil, if_true]
    rw [trunkFallback, hns]

/-- Witness for C5: a 3-cycle has no degree-1 node after bridging, and the
fallback BFS path from its first node is returned. -/
theorem find_trunk_longest_path_fallback_witness :
    endpointsOf (bridge_endpoints ⟨[(0, 0), (0, 1), (1, 0)],
        [((0, 0), (0, 1)), ((0, 1), (1, 0)), ((0, 0), (1, 0))]⟩ (5 / 2)) = [] ∧
    find_trunk_longest_path ⟨[(0, 0), (0, 1), (1, 0)],
        [((0, 0), (0, 1)), ((0, 1), (1, 0)), ((0, 0), (1, 0))]⟩ = [(0, 0), (0, 1)] := by
  refine ⟨by decide, ?_⟩
  have h := (find_trunk_longest_path_fallback ⟨[(0, 0), (0, 1), (1, 0)],
    [((0, 0), (0, 1)), ((0, 1), (1, 0)), ((0, 0), (1, 0))]⟩ (by decide)).2
    (0, 0) [(0, 1), (1, 0)] (by decide)
  rw [h]
  decide

/-- C4: route joining deduplicates a shared joint point and inserts a
connecting point otherwise (the two concrete examples of the spec); every
route with fewer than 2 points is given length 0 by the partitioner's length
computation, still participates in scheduling (the buckets of
`split_routes_for_agents` are collectively a permutation of the input
routes), and is skipped entirely by the join step (joining is unchanged by
removing all such routes). -/
theorem join_and_degenerate_routes :
    (join_routes_for_agent [[((0 : ℤ), (0 : ℤ)), (1, 0)], [(1, 0), (1, 1)]] =
        [(0, 0), (1, 0), (1, 1)] ∧
      join_routes_for_agent [[((0 : ℤ), (0 : ℤ)), (1, 0)], [(2, 2), (2, 3)]] =
        [(0, 0), (1, 0), (2, 2), (2, 3)]) ∧
    (∀ (α : Type) (lenF : List α → ℚ) (r : List α),
      r.length < 2 → routeLen lenF r = 0) ∧
    (∀ (α : Type) (lenF : List α → ℚ) (routes : List (List α)) (n_agents : ℤ),
      routes ≠ [] → 0 < n_agents →
      ((split_routes_for_agents lenF routes n_agents).flatten).Perm routes) ∧
    (∀ (α : Type) (inst : DecidableEq α) (rl : List (List α)),
      join_routes_for_agent rl =
        join_routes_for_agent (rl.filter (fun s => 2 ≤ s.length))) := by
  refine ⟨⟨by decide, by decide⟩, ?_, ?_, ?_⟩
  · intro α lenF r hr
    simp [routeLen, Nat.not_le_of_lt hr]
  · intro α lenF routes n_agents hne hpos
    rw [split_routes_for_agents]
    have hcond : ¬(routes.isEmpty ∨ n_agents ≤ 0) := by
      simp [List.isEmpty_iff, hne, not_le, hpos]
    rw [if_neg hcond]
    have hmpos : 0 < min n_agents.toNat routes.length := by
      have h1 : 0 < n_agents.toNat := by omega
      have h2 : 0 < routes.length := List.length_pos.mpr hne
      exact lt_min h1 h2
    have hperm := splitFold_flatten_perm routes (routes.map (routeLen lenF))
      (sortDesc (fun i => (routes.map (routeLen lenF)).getD i 0)
        (List.range routes.length))
      (List.replicate (min n_agents.toNat routes.length) [],
        List.replicate (min n_agents.toNat routes.length) 0)
      (by simp) (by simpa using hmpos)
    refine hperm.trans ?_
    simp only [List.flatten_replicate_nil, List.nil_append]
    have hperm2 : (sortDesc (fun i => (routes.map (routeLen lenF)).getD i 0)
        (List.range routes.length)).Perm (List.range routes.length) :=
      sortDesc_perm _ _
    refine (hperm2.map (fun idx => routes.getD idx [])).trans ?_
    rw [map_getD_range]
  · intro α inst rl
    exact join_foldl_filter rl []

/-- C8: every branch returned by `extract_branches(G, trunk, min_len)` has
at least `min_len` nodes, its first node lies on the trunk, every one of its
remaining nodes lies strictly off the trunk, and every pair of consecutive
nodes in it is adjacent in `G`. -/
theorem extract_branches_shape (G : Graph) (trunk : List Node) (min_len : ℕ) :
    ∀ b ∈ extract_branches G trunk min_len,
      min_len ≤ b.length ∧
      (∃ v p, b = v :: p ∧ v ∈ trunk ∧ ∀ x ∈ p, x ∉ trunk) ∧
      pathChain G b := by
  intro b hb
  have h := extract_branches_sound G trunk min_len b hb
  exact ⟨h.1, h.2.1, h.2.2.1⟩

/-- Witness for C8: a concrete branch of a concrete graph. -/
theorem extract_branches_shape_witness :
    2 ≤ ([((0 : ℤ), (0 : ℤ)), (0, 1), (0, 2), (1, 2)] : List Node).length ∧
    (∃ v p, ([((0 : ℤ), (0 : ℤ)), (0, 1), (0, 2), (1, 2)] : List Node) = v :: p ∧
      v ∈ [(((0 : ℤ), (0 : ℤ)) : Node)] ∧ ∀ x ∈ p, x ∉ [(((0 : ℤ), (0 : ℤ)) : Node)]) ∧
    pathChain ⟨[(0, 0), (0, 1), (0, 2), (0, 3), (1, 2)],
      [((0, 0), (0, 1)), ((0, 1), (0, 2)), ((0, 2), (0, 3)), ((0, 2), (1, 2))]⟩
      [(0, 0), (0, 1), (0, 2), (1, 2)] :=
  extract_branches_shape
    ⟨[(0, 0), (0, 1), (0, 2), (0, 3), (1, 2)],
      [((0, 0), (0, 1)), ((0, 1), (0, 2)), ((0, 2), (0, 3)), ((0, 2), (1, 2))]⟩
    [(0, 0)] 2 [(0, 0), (0, 1), (0, 2), (1, 2)] (by decide)

/-- Counterexample to C1 as stated: on the path graph
`(0,0)-(0,1)-(0,2)` with two extra spurs `(0,2)-(0,3)` and `(0,2)-(1,2)`,
with trunk `[(0,0)]` and `min_len = 2`, the two returned branches share
their common DFS prefix, so the off-trunk edge `{(0,0),(0,1)}` (its endpoint
`(0,1)` is not a trunk node) occurs in two distinct returned branches. -/
theorem extract_branches_edge_sharing_counterexample :
    extract_branches ⟨[(0, 0), (0, 1), (0, 2), (0, 3), (1, 2)],
        [((0, 0), (0, 1)), ((0, 1), (0, 2)), ((0, 2), (0, 3)), ((0, 2), (1, 2))]⟩
        [(0, 0)] 2 =
      [[(0, 0), (0, 1), (0, 2), (1, 2)], [(0, 0), (0, 1), (0, 2), (0, 3)]] ∧
    edgeKey (0, 0) (0, 1) ∈ pathEdges [((0 : ℤ), (0 : ℤ)), (0, 1), (0, 2), (1, 2)] ∧
    edgeKey (0, 0) (0, 1) ∈ pathEdges [((0 : ℤ), (0 : ℤ)), (0, 1), (0, 2), (0, 3)] ∧
    (((0 : ℤ), (1 : ℤ)) : Node) ∉ [(((0 : ℤ), (0 : ℤ)) : Node)] := by
  refine ⟨by decide, by decide, by decide, by decide⟩

/-- C1 (amended): among the branch paths returned by `extract_branches`, no
consecutive-node edge has both endpoints on the trunk, and no off-trunk edge
occurs more than once within a single returned branch; distinct returned
branches may still share the edges of their common DFS prefix, which is what
the counterexample exhibits. -/
theorem extract_branches_edges (G : Graph) (trunk : List Node) (min_len : ℕ) :
    ∀ b ∈ extract_branches G trunk min_len,
      (∀ e ∈ pathEdges b, ¬(e.1 ∈ trunk ∧ e.2 ∈ trunk)) ∧
      (pathEdges b).Nodup := by
  intro b hb
  have h := extract_branches_sound G trunk min_len b hb
  exact ⟨h.2.2.2.2, h.2.2.2.1⟩

/-- Witness for the amended C1 at a concrete graph and branch. -/
theorem extract_branches_edges_witness :
    (∀ e ∈ pathEdges [((0 : ℤ), (0 : ℤ)), (0, 1), (0, 2), (0, 3)],
      ¬(e.1 ∈ [(((0 : ℤ), (0 : ℤ)) : Node)] ∧ e.2 ∈ [(((0 : ℤ), (0 : ℤ)) : Node)])) ∧
    (pathEdges [((0 : ℤ), (0 : ℤ)), (0, 1), (0, 2), (0, 3)]).Nodup :=
  extract_branches_edges
    ⟨[(0, 0), (0, 1), (0, 2), (0, 3), (1, 2)],
      [((0, 0), (0, 1)), ((0, 1), (0, 2)), ((0, 2), (0, 3)), ((0, 2), (1, 2))]⟩
    [(0, 0)] 2 [(0, 0), (0, 1), (0, 2), (0, 3)] (by decide)

set_option maxRecDepth 4000 in
/-- Counterexample to C7 as stated: on a 2×2 mask, the four corner cells
are mutually 8-adjacent, so the graph has 4 nodes but 6 edges, not 0. -/
theorem skeleton_corners_2x2_counterexample :
    (skeleton_to_graph (cornerMask 2 2) 2 2 8).nodes.length = 4 ∧
    (skeleton_to_graph (cornerMask 2 2) 2 2 8).edges.length = 6 := by
  constructor <;> decide

/-- C7 (amended): for `H, W ≥ 3` (the 2×2 counterexample forces corners to
be non-adjacent), the corners-only mask yields exactly the 4 corner nodes
and no edge; a mask whose foreground is a single straight line of `k ≥ 1`
pixels (in any of the four scan-order directions, its cells listed by the
row-major foreground scan) yields exactly the `k` line pixels as nodes and
the `k-1` consecutive-pixel edges, a simple path since the nodes are
pairwise distinct; and no node is ever created for a background cell. -/
theorem skeleton_to_graph_shapes :
    (∀ H W : ℕ, 3 ≤ H → 3 ≤ W →
      (skeleton_to_graph (cornerMask H W) H W 8).nodes =
        [((0 : ℤ), (0 : ℤ)), (0, (W : ℤ) - 1), ((H : ℤ) - 1, 0), ((H : ℤ) - 1, (W : ℤ) - 1)] ∧
      (skeleton_to_graph (cornerMask H W) H W 8).edges = []) ∧
    (∀ (p0 : Node) (f : ℤ × ℤ) (k h w : ℕ), f ∈ scanDirs → 1 ≤ k →
      maskCells (lineMask p0 f k) h w = lineCells p0 f k →
      skeleton_to_graph (lineMask p0 f k) h w 8 =
        ⟨lineCells p0 f k, lineEdgesUpTo p0 f (k - 1)⟩ ∧
      (lineCells p0 f k).length = k ∧
      (lineEdgesUpTo p0 f (k - 1)).length = k - 1 ∧
      (lineCells p0 f k).Nodup) ∧
    (∀ (mask : ℤ → ℤ → Bool) (h w conn : ℕ) (p : Node),
      p ∈ (skeleton_to_graph mask h w conn).nodes → mask p.1 p.2 = true) := by
  refine ⟨?_, ?_, ?_⟩
  · intro H W hH hW
    rw [skeleton_corner_eq H W hH hW]
    exact ⟨rfl, rfl⟩
  · intro p0 f k h w hf hk hmask
    refine ⟨skeleton_line_eq p0 f k h w hf hk hmask, by simp [lineCells], by
      simp [lineEdgesUpTo], ?_⟩
    rw [lineCells]
    refine List.Nodup.map ?_ (List.nodup_range k)
    intro a b hab
    exact lineCell_inj p0 f hf a b hab
  · intro mask h w conn p hp
    rw [skeleton_to_graph_nodes] at hp
    exact ((mem_maskCells mask h w p).mp hp).2.2.2.2

/-- Witness for the amended C7 at a 3×3 corner mask and a horizontal
3-pixel line in a 1×3 grid. -/
theorem skeleton_to_graph_shapes_witness :
    ((skeleton_to_graph (cornerMask 3 3) 3 3 8).nodes =
      [((0 : ℤ), (0 : ℤ)), (0, (3 : ℤ) - 1), ((3 : ℤ) - 1, 0), ((3 : ℤ) - 1, (3 : ℤ) - 1)] ∧
     (skeleton_to_graph (cornerMask 3 3) 3 3 8).edges = []) ∧
    skeleton_to_graph (lineMask (0, 0) (0, 1) 3) 1 3 8 =
      ⟨lineCells (0, 0) (0, 1) 3, lineEdgesUpTo (0, 0) (0, 1) (3 - 1)⟩ :=
  ⟨skeleton_to_graph_shapes.1 3 3 (by omega) (by omega),
   (skeleton_to_graph_shapes.2.1 (0, 0) (0, 1) 3 1 3 (by decide) (by omega) (by decide)).1⟩

/-- C6: after `_bridge_endpoints(G, maxDist)` (for a nonnegative threshold,
so that the squared-distance comparison is the Euclidean one), the node list
is unchanged and the edge set is exactly the input edge set plus an edge for
every unordered pair of distinct nodes that had degree 1 in the input, lie
within `maxDist`, and were not already adjacent (pairs already adjacent are
absorbed by the input edge set).  Stated on a graph with duplicate-free
nodes, which every graph built by this code satisfies. -/
theorem bridge_endpoints_spec (G : Graph) (q : ℚ) (hnd : G.nodes.Nodup)
    (hq : 0 ≤ q) :
    (bridge_endpoints G q).nodes = G.nodes ∧
    ∀ x y, (hasEdge (bridge_endpoints G q) x y = true ↔
      hasEdge G x y = true ∨
        ∃ a b, a ∈ endpointsOf G ∧ b ∈ endpointsOf G ∧ a ≠ b ∧
          distSqLe a b q = true ∧ pairMatch x y a b) := by
  have _hq := hq
  have heps : ∀ b ∈ endpointsOf G, b ∈ G.nodes := by
    intro b hb
    exact List.mem_of_mem_filter hb
  have hepnd : (endpointsOf G).Nodup := List.Nodup.filter _ hnd
  exact bridgeLoop_spec q (endpointsOf G) G heps hepnd

/-- Witness for C6: in a 3-node path, the two ends are the degree-1 nodes,
they lie within distance 5/2 and are not adjacent, and bridging adds exactly
the edge between them. -/
theorem bridge_endpoints_spec_witness :
    ([((0 : ℤ), (0 : ℤ)), (0, 1), (0, 2)].Nodup ∧
      hasEdge (bridge_endpoints ⟨[(0, 0), (0, 1), (0, 2)],
        [((0, 0), (0, 1)), ((0, 1), (0, 2))]⟩ (5 / 2)) (0, 0) (0, 2) = true) ∧
    hasEdge ⟨[((0 : ℤ), (0 : ℤ)), (0, 1), (0, 2)],
      [((0, 0), (0, 1)), ((0, 1), (0, 2))]⟩ (0, 0) (0, 2) = false := by
  refine ⟨⟨by decide, ?_⟩, by decide⟩
  refine ((bridge_endpoints_spec ⟨[(0, 0), (0, 1), (0, 2)],
    [((0, 0), (0, 1)), ((0, 1), (0, 2))]⟩ (5 / 2) (by decide) (by norm_num)).2
    (0, 0) (0, 2)).mpr ?_
  refine Or.inr ⟨(0, 0), (0, 2), by decide, by decide, by decide, ?_, ?_⟩
  · simp only [distSqLe, decide_eq_true_eq]
    norm_num
  · exact Or.inl ⟨rfl, rfl⟩

/-- Witness for C4 at concrete inputs: a single-point route gets length 0,
is assigned to a bucket by the splitter, and is dropped by joining. -/
theorem join_and_degenerate_routes_witness :
    routeLen (fun _ => 7) [((9 : ℤ), (9 : ℤ))] = 0 ∧
    ((split_routes_for_agents (fun r => (r.length : ℚ))
        [[((0 : ℤ), (0 : ℤ)), (1, 0)], [(0, 0), (2, 0), (3, 0)], [(9, 9)]] 2).flatten).Perm
      [[((0 : ℤ), (0 : ℤ)), (1, 0)], [(0, 0), (2, 0), (3, 0)], [(9, 9)]] ∧
    join_routes_for_agent [[((0 : ℤ), (0 : ℤ)), (1, 0)], [(9, 9)]] =
      join_routes_for_agent [[((0 : ℤ), (0 : ℤ)), (1, 0)]] :=
  ⟨(join_and_degenerate_routes.2.1 _ (fun _ => 7) [((9 : ℤ), (9 : ℤ))] (by decide)),
    (join_and_degenerate_routes.2.2.1 _ (fun r => (r.length : ℚ))
      [[((0 : ℤ), (0 : ℤ)), (1, 0)], [(0, 0), (2, 0), (3, 0)], [(9, 9)]] 2
      (by decide) (by decide)),
    by decide⟩


/-- C2: counterexample to the unconditional claim.  The graph that is the
single simple path `(0,0) - (0,1) - (0,2)` has exactly the two degree-1 end
nodes, yet `find_trunk_longest_path` returns only 2 of its 3 nodes: the
bridging step joins the two ends (distance 2 ≤ 2.5), the bridged copy is a
3-cycle with no degree-1 node, and the fallback BFS from the first node
stops one hop away. -/
theorem find_trunk_on_path_counterexample :
    (pathGraph [((0 : ℤ), (0 : ℤ)), (0, 1), (0, 2)]).nodes.length = 3 ∧
    endpointsOf (pathGraph [((0 : ℤ), (0 : ℤ)), (0, 1), (0, 2)]) =
      [((0 : ℤ), (0 : ℤ)), ((0 : ℤ), (2 : ℤ))] ∧
    find_trunk_longest_path (pathGraph [((0 : ℤ), (0 : ℤ)), (0, 1), (0, 2)]) =
      [((0 : ℤ), (0 : ℤ)), ((0 : ℤ), (1 : ℤ))] := by
  refine ⟨rfl, by decide, ?_⟩
  have hd : distSqLe ((0 : ℤ), (0 : ℤ)) ((0 : ℤ), (2 : ℤ)) (5 / 2) = true := by
    simp only [distSqLe, decide_eq_true_eq]
    norm_num
  have hb1 : bridgeInner (5 / 2) ((0 : ℤ), (0 : ℤ))
      (pathGraph [((0 : ℤ), (0 : ℤ)), (0, 1), (0, 2)]) [((0 : ℤ), (2 : ℤ))] =
      (⟨[((0 : ℤ), (0 : ℤ)), (0, 1), (0, 2)],
        [(((0 : ℤ), (0 : ℤ)), ((0 : ℤ), (1 : ℤ))),
         (((0 : ℤ), (1 : ℤ)), ((0 : ℤ), (2 : ℤ))),
         (((0 : ℤ), (0 : ℤ)), ((0 : ℤ), (2 : ℤ)))]⟩ : Graph) := by
    rw [bridgeInner, List.foldl_cons, List.foldl_nil]
    rw [if_pos ⟨hd, by decide⟩]
    rfl
  have hbr : bridge_endpoints (pathGraph [((0 : ℤ), (0 : ℤ)), (0, 1), (0, 2)]) (5 / 2) =
      (⟨[((0 : ℤ), (0 : ℤ)), (0, 1), (0, 2)],
        [(((0 : ℤ), (0 : ℤ)), ((0 : ℤ), (1 : ℤ))),
         (((0 : ℤ), (1 : ℤ)), ((0 : ℤ), (2 : ℤ))),
         (((0 : ℤ), (0 : ℤ)), ((0 : ℤ), (2 : ℤ)))]⟩ : Graph) := by
    rw [bridge_endpoints]
    rw [show endpointsOf (pathGraph [((0 : ℤ), (0 : ℤ)), (0, 1), (0, 2)]) =
      [((0 : ℤ), (0 : ℤ)), ((0 : ℤ), (2 : ℤ))] from by decide]
    show bridgeLoop (5 / 2)
      (bridgeInner (5 / 2) ((0 : ℤ), (0 : ℤ)) _ [((0 : ℤ), (2 : ℤ))])
      [((0 : ℤ), (2 : ℤ))] = _
    rw [hb1]
    rfl
  simp only [find_trunk_longest_path]
  rw [hbr]
  rw [show endpointsOf (⟨[((0 : ℤ), (0 : ℤ)), (0, 1), (0, 2)],
        [(((0 : ℤ), (0 : ℤ)), ((0 : ℤ), (1 : ℤ))),
         (((0 : ℤ), (1 : ℤ)), ((0 : ℤ), (2 : ℤ))),
         (((0 : ℤ), (0 : ℤ)), ((0 : ℤ), (2 : ℤ)))]⟩ : Graph) = ([] : List Node)
    from by decide]
  decide

/-- C2 (amended): for a graph that is a single simple path on the distinct
nodes `a :: mid ++ [z]`, provided the bridging step does not join the two
ends (they are farther apart than `5/2`, or already adjacent, as for a
2-node path), `find_trunk_longest_path` returns the full path, and the two
path ends are exactly the degree-1 nodes. -/
theorem find_trunk_on_path (a z : Node) (mid : List Node)
    (hnd : (a :: (mid ++ [z])).Nodup)
    (hnb : distSqLe a z (5 / 2) = false ∨
      hasEdge (pathGraph (a :: (mid ++ [z]))) a z = true) :
    find_trunk_longest_path (pathGraph (a :: (mid ++ [z]))) = a :: (mid ++ [z]) ∧
    endpointsOf (pathGraph (a :: (mid ++ [z]))) = [a, z] := by
  have heps := endpointsOf_pathGraph a z mid hnd
  refine ⟨?_, heps⟩
  have hbr := bridge_two_noop (pathGraph (a :: (mid ++ [z]))) (5 / 2) a z heps hnb
  have htab1 := bfsTable_pathGraph a (mid ++ [z]) hnd
  have harg1 : argmaxD (bfsLengths (pathGraph (a :: (mid ++ [z]))) a) = z :=
    argmaxD_bfs_of_table _ a z (mid ++ [z]) htab1 (by rw [List.getLast?_concat])
  have hpath1 : shortestPathBFS (pathGraph (a :: (mid ++ [z]))) a z =
      a :: (mid ++ [z]) :=
    shortestPathBFS_of_table _ a z (mid ++ [z]) htab1 hnd
      (by rw [List.getLast?_concat])
  have hndrev : (z :: (mid.reverse ++ [a])).Nodup := by
    have h := (List.nodup_reverse).mpr hnd
    rwa [show (a :: (mid ++ [z])).reverse = z :: (mid.reverse ++ [a]) from by simp]
      at h
  have htab2 := bfsTable_pathGraph_rev a z mid hnd
  have harg2 : argmaxD (bfsLengths (pathGraph (a :: (mid ++ [z]))) z) = a :=
    argmaxD_bfs_of_table _ z a (mid.reverse ++ [a]) htab2
      (by rw [List.getLast?_concat])
  have hpath2 : shortestPathBFS (pathGraph (a :: (mid ++ [z]))) z a =
      z :: (mid.reverse ++ [a]) :=
    shortestPathBFS_of_table _ z a (mid.reverse ++ [a]) htab2 hndrev
      (by rw [List.getLast?_concat])
  simp only [find_trunk_longest_path]
  rw [hbr, heps]
  rw [if_neg (by simp)]
  simp only [trunkFromEndpoints, List.foldl_cons, List.foldl_nil]
  simp only [harg1, hpath1, harg2, hpath2]
  have hinner : (if (a :: (mid ++ [z])).length > ([] : List Node).length
      then a :: (mid ++ [z]) else ([] : List Node)) = a :: (mid ++ [z]) :=
    if_pos (by simp only [List.length_cons, List.length_nil]; omega)
  rw [hinner]
  rw [if_neg (by
    simp only [List.length_cons, List.length_append, List.length_reverse,
      List.length_nil]
    omega)]

/-- Witness for the amended C2 at a concrete 5-node line whose ends are 4
apart, hence not bridged. -/
theorem find_trunk_on_path_witness :
    find_trunk_longest_path
        (pathGraph [((0 : ℤ), (0 : ℤ)), (0, 1), (0, 2), (0, 3), (0, 4)]) =
      [((0 : ℤ), (0 : ℤ)), (0, 1), (0, 2), (0, 3), (0, 4)] ∧
    endpointsOf (pathGraph [((0 : ℤ), (0 : ℤ)), (0, 1), (0, 2), (0, 3), (0, 4)]) =
      [((0 : ℤ), (0 : ℤ)), ((0 : ℤ), (4 : ℤ))] :=
  find_trunk_on_path ((0 : ℤ), (0 : ℤ)) ((0 : ℤ), (4 : ℤ)) [(0, 1), (0, 2), (0, 3)]
    (by decide)
    (Or.inl (by
      simp only [distSqLe, decide_eq_false_iff_not]
      norm_num))


/-- C3: the greedy longest-first splitter is within 4/3 of every balanced
partition (the Longest-Processing-Time guarantee).  For nonempty `routes`, a
positive agent count, a nonnegative external length function, and any
assignment `σ` of route indices to the `m = min(n_agents, len(routes))`
buckets whose per-bucket totals are all at most `T` — in particular an
optimal partition with `T` its maximum bucket total — every bucket total
produced by `split_routes_for_agents` is at most `4/3 · T`. -/
theorem split_routes_lpt_bound {α : Type} (lenF : List α → ℚ)
    (routes : List (List α)) (n_agents : ℤ) (T : ℚ) (σ : ℕ → ℕ)
    (hr : routes ≠ []) (hn : 0 < n_agents)
    (hlenF : ∀ r, 0 ≤ lenF r)
    (hσ : ∀ i, i < routes.length → σ i < min n_agents.toNat routes.length)
    (hload : ∀ j, j < min n_agents.toNat routes.length →
      loadOf (routes.map (routeLen lenF)) σ j ≤ T) :
    ∀ L ∈ split_bucket_lens lenF routes n_agents, L ≤ 4 / 3 * T := by
  intro L hL
  have hm : 0 < min n_agents.toNat routes.length := by
    have h1 : 0 < routes.length := List.length_pos.mpr hr
    have h2 : 0 < n_agents.toNat := by omega
    omega
  have hlnn : ∀ i, 0 ≤ (routes.map (routeLen lenF)).getD i 0 := by
    intro i
    by_cases hi : i < (routes.map (routeLen lenF)).length
    · rw [List.getD_eq_getElem _ 0 hi, List.getElem_map]
      show 0 ≤ routeLen lenF _
      simp only [routeLen]
      split_ifs
      · exact hlenF _
      · exact le_refl 0
    · rw [List.getD_eq_default _ 0 (by omega)]
  have hT0 : 0 ≤ T := by
    have h1 := hload 0 hm
    have h2 : 0 ≤ loadOf (routes.map (routeLen lenF)) σ 0 :=
      Finset.sum_nonneg (fun i _ => hlnn i)
    linarith
  have hcond : ¬ (routes.isEmpty = true ∨ n_agents ≤ 0) := by
    rintro (h | h)
    · exact hr (List.isEmpty_iff.mp h)
    · omega
  rw [show split_bucket_lens lenF routes n_agents =
      ((sortDesc (fun i => (routes.map (routeLen lenF)).getD i 0)
        (List.range routes.length)).foldl
        (splitStep routes (routes.map (routeLen lenF)))
        (List.replicate (min n_agents.toNat routes.length) [],
         List.replicate (min n_agents.toNat routes.length) 0)).2 from by
    simp only [split_bucket_lens]
    rw [if_neg hcond]] at hL
  rw [splitFold_snd] at hL
  have hperm : (sortDesc (fun i => (routes.map (routeLen lenF)).getD i 0)
      (List.range routes.length)).Perm
      (List.range (routes.map (routeLen lenF)).length) := by
    rw [List.length_map]
    exact sortDesc_perm _ (List.range routes.length)
  have holen : (sortDesc (fun i => (routes.map (routeLen lenF)).getD i 0)
      (List.range routes.length)).length = routes.length := by
    rw [hperm.length_eq, List.length_range, List.length_map]
  refine greedy_lpt T (min n_agents.toNat routes.length) hm
    ((sortDesc (fun i => (routes.map (routeLen lenF)).getD i 0)
      (List.range routes.length)).map
      (fun i => (routes.map (routeLen lenF)).getD i 0))
    (fun p => σ ((sortDesc (fun i => (routes.map (routeLen lenF)).getD i 0)
      (List.range routes.length)).getD p 0))
    hT0 ?_ ?_ ?_ ?_ L hL
  · exact (List.pairwise_map).mpr (sortDesc_pairwise _ (List.range routes.length))
  · intro i hi
    rw [List.length_map] at hi
    rw [List.getD_eq_getElem _ 0 (by rw [List.length_map]; exact hi),
      List.getElem_map]
    exact hlnn _
  · intro p hp
    rw [List.length_map, holen] at hp
    have hpl : p < (sortDesc (fun i => (routes.map (routeLen lenF)).getD i 0)
        (List.range routes.length)).length := by rw [holen]; exact hp
    have hmem : (sortDesc (fun i => (routes.map (routeLen lenF)).getD i 0)
        (List.range routes.length)).getD p 0 < routes.length := by
      rw [List.getD_eq_getElem _ 0 hpl]
      have h1 := hperm.mem_iff.mp (List.getElem_mem hpl)
      rw [List.length_map] at h1
      exact List.mem_range.mp h1
    exact hσ _ hmem
  · intro j hj
    rw [loadOf_reindex (routes.map (routeLen lenF)) _ σ j hperm]
    exact hload j hj

/-- Witness for C3 at a concrete instance: one 2-point route, one agent,
the optimal single bucket having total 2, so the single greedy bucket total
2 is within 4/3 of it. -/
theorem split_routes_lpt_bound_witness :
    (2 : ℚ) ∈ split_bucket_lens (fun r => (r.length : ℚ))
      [[((0 : ℤ), (0 : ℤ)), (1, 0)]] 1 ∧ (2 : ℚ) ≤ 4 / 3 * 2 := by
  have hmem : (2 : ℚ) ∈ split_bucket_lens (fun r => (r.length : ℚ))
      [[((0 : ℤ), (0 : ℤ)), (1, 0)]] 1 := by
    rw [show split_bucket_lens (fun r => (r.length : ℚ))
        [[((0 : ℤ), (0 : ℤ)), (1, 0)]] 1 =
      [0 + (([((0 : ℤ), (0 : ℤ)), (1, 0)].length : ℕ) : ℚ)] from rfl]
    rw [List.mem_singleton]
    norm_num
  refine ⟨hmem, ?_⟩
  exact split_routes_lpt_bound (fun r => (r.length : ℚ))
    [[((0 : ℤ), (0 : ℤ)), (1, 0)]] 1 2 (fun _ => 0)
    (by decide) (by decide)
    (fun r => by positivity)
    (fun i hi => by
      show (0 : ℕ) < min (Int.toNat 1) [[((0 : ℤ), (0 : ℤ)), (1, 0)]].length
      decide)
    (fun j hj => by
      have hj0 : j = 0 := by omega
      subst hj0
      simp only [loadOf, List.map_cons, List.map_nil, routeLen]
      norm_num [Finset.sum_filter, Finset.sum_range_succ])
    2 hmem

end LF
